import Mathlib

/-!
Verification of the molecular-dynamics core `davis.c` (particles on the unit
sphere: RATTLE-constrained velocity-Verlet integrator, shifted-Coulomb pair
force kernel with damping, cell-list and brute-force neighbor sweeps, and
array utilities).

The embedding uses real arithmetic (`ℝ`) for the C `double` type, `List
Particle` for particle arrays, and a function `ℤ → ℤ` for the cell head
table.  Machine floating point is modelled by exact real arithmetic; the
claims about numerical tolerances are settled in their exact-real form.
-/

/-- Modelled from the spec: 3-vector of doubles (`vec` in `davis.h`, which is
not part of the provided sources).  Components are 64-bit floats in C,
modelled as reals. -/
@[ext]
structure Vec where
  x : ℝ
  y : ℝ
  z : ℝ

/-- Modelled from the spec: componentwise vector addition (`vec_add` /
`vec_inc` of `davis.h`). -/
noncomputable def vec_add (a b : Vec) : Vec := ⟨a.x + b.x, a.y + b.y, a.z + b.z⟩

/-- Modelled from the spec: componentwise vector subtraction (`vec_sub` /
`vec_dec` of `davis.h`). -/
noncomputable def vec_sub (a b : Vec) : Vec := ⟨a.x - b.x, a.y - b.y, a.z - b.z⟩

/-- Modelled from the spec: scalar multiple (`vec_sclr` of `davis.h`). -/
noncomputable def vec_sclr (s : ℝ) (a : Vec) : Vec := ⟨s * a.x, s * a.y, s * a.z⟩

/-- Modelled from the spec: Euclidean dot product (`vec_dot` of `davis.h`). -/
noncomputable def vec_dot (a b : Vec) : ℝ := a.x * b.x + a.y * b.y + a.z * b.z

/-- Modelled from the spec: squared magnitude (`vec_magnitude2` of `davis.h`). -/
noncomputable def vec_magnitude2 (a : Vec) : ℝ := vec_dot a a

/-- Modelled from the spec: the zero vector (`VEC_ZERO` of `davis.h`). -/
def VEC_ZERO : Vec := ⟨0, 0, 0⟩

noncomputable instance : Zero Vec := ⟨VEC_ZERO⟩

noncomputable instance : Add Vec := ⟨vec_add⟩

noncomputable instance : AddCommMonoid Vec where
  add_assoc a b c := show vec_add (vec_add a b) c = vec_add a (vec_add b c) by
    ext <;> simp [vec_add] <;> ring
  zero_add a := show vec_add VEC_ZERO a = a by
    ext <;> simp [vec_add, VEC_ZERO]
  add_zero a := show vec_add a VEC_ZERO = a by
    ext <;> simp [vec_add, VEC_ZERO]
  add_comm a b := show vec_add a b = vec_add b a by
    ext <;> simp [vec_add] <;> ring
  nsmul := nsmulRec

theorem vec_add_def (a b : Vec) : a + b = vec_add a b := rfl

theorem vec_zero_def : (0 : Vec) = VEC_ZERO := rfl

/-- Helper: negation of a vector (used only to state acceleration
contributions; the source applies `vec_dec`, i.e. subtraction). -/
noncomputable def vec_neg (a : Vec) : Vec := ⟨-a.x, -a.y, -a.z⟩

theorem vec_sub_eq_add_neg (a b : Vec) : vec_sub a b = vec_add a (vec_neg b) := by
  ext <;> simp [vec_sub, vec_add, vec_neg] <;> ring

theorem vec_dot_comm (a b : Vec) : vec_dot a b = vec_dot b a := by
  simp [vec_dot]; ring

theorem vec_magnitude2_nonneg (a : Vec) : 0 ≤ vec_magnitude2 a := by
  simp only [vec_magnitude2, vec_dot]
  nlinarith [mul_self_nonneg a.x, mul_self_nonneg a.y, mul_self_nonneg a.z]

theorem vec_magnitude2_sub_comm (a b : Vec) :
    vec_magnitude2 (vec_sub a b) = vec_magnitude2 (vec_sub b a) := by
  simp [vec_magnitude2, vec_dot, vec_sub]; ring

/-- Expansion of the squared magnitude of `a + t • b`. -/
theorem vec_magnitude2_add_sclr (a b : Vec) (t : ℝ) :
    vec_magnitude2 (vec_add a (vec_sclr t b)) =
      vec_magnitude2 a + 2 * t * vec_dot a b + t * t * vec_magnitude2 b := by
  simp [vec_magnitude2, vec_dot, vec_add, vec_sclr]; ring

/-- Particle record: position, velocity, acceleration, and the intrusive
linked-list index `next` (`Particle` of `davis.h`, layout per spec §3). -/
structure Particle where
  r : Vec
  v : Vec
  a : Vec
  next : ℤ

/-- Helper: a default particle used to totalize list indexing. -/
def pdef : Particle := ⟨VEC_ZERO, VEC_ZERO, VEC_ZERO, -1⟩

/-- Helper: total indexing into a particle array. -/
def getP (ps : List Particle) (i : ℕ) : Particle := ps.getD i pdef

/-- Statistics sink (`Stats` of `davis.h`, per spec §3): candidate pair
count, within-cutoff pair count, accumulated potential energy. -/
structure Stats where
  ww_counter : ℕ
  real_ww_counter : ℕ
  E_pot : ℝ

/-- Cell grid (`Cells` of `davis.h` / `davis.c`): cell edge `dr`, binning
`L`, and the head table, modelled as a total function from cell number to
head index (`-1` meaning empty).  The C `num_cells = L³` field is implicit
in this model. -/
structure Cells where
  dr : ℝ
  binning : ℕ
  cells : ℤ → ℤ

/-- Mirrors `Cells_new`: `dr = 2.0 / binning`.  The C head table is
allocated uninitialized; it is modelled as all `-1` (its content is never
read before `Cells_clear`, which `dvs_populate_cells` always calls first). -/
noncomputable def Cells_new (binning : ℕ) : Cells :=
  { dr := 2 / (binning : ℝ), binning := binning, cells := fun _ => -1 }

/-- Mirrors `Cells_clear`: every head is set to `-1`. -/
def Cells_clear (c : Cells) : Cells := { c with cells := fun _ => -1 }

/-! ## The constraint integrator (`dvs_advance`, `dvs_correct`) -/

/-- Velocity after the first half-kick in `dvs_advance`:
`v + dt_hlf * a` with `dt_hlf = 0.5 * dt`. -/
noncomputable def advV1 (dt : ℝ) (p : Particle) : Vec :=
  vec_add p.v (vec_sclr (0.5 * dt) p.a)

/-- Predicted position in `dvs_advance`: `r + dt * v` (with the already
half-kicked velocity). -/
noncomputable def advR1 (dt : ℝ) (p : Particle) : Vec :=
  vec_add p.r (vec_sclr dt (advV1 dt p))

/-- Discriminant of the RATTLE position projection in `dvs_advance`:
`1.0 - r0_sqr + r0_dot_r * r0_dot_r` where `r0_sqr = |r_predicted|²` and
`r0_dot_r = r_old · r_predicted`. -/
noncomputable def advDisc (dt : ℝ) (p : Particle) : ℝ :=
  1 - vec_dot (advR1 dt p) (advR1 dt p) +
    vec_dot p.r (advR1 dt p) * vec_dot p.r (advR1 dt p)

/-- Lagrange multiplier of the position projection in `dvs_advance`:
`lambda = -r0_dot_r + sqrt(1.0 - r0_sqr + r0_dot_r*r0_dot_r)`. -/
noncomputable def advLambda (dt : ℝ) (p : Particle) : ℝ :=
  -vec_dot p.r (advR1 dt p) + Real.sqrt (advDisc dt p)

/-- Per-particle body of `dvs_advance` (lines 74–88 of `davis.c`):
half-kick, drift, clear acceleration, RATTLE position projection
`r ← r + λ·r_old`, velocity compensation `v ← v + (λ/dt)·r_old`. -/
noncomputable def advanceParticle (dt : ℝ) (p : Particle) : Particle :=
  { r := vec_add (advR1 dt p) (vec_sclr (advLambda dt p) p.r)
    v := vec_add (advV1 dt p) (vec_sclr (advLambda dt p / dt) p.r)
    a := VEC_ZERO
    next := p.next }

/-- Mirrors `dvs_advance`: the per-particle body applied to each particle. -/
noncomputable def dvs_advance (dt : ℝ) (ps : List Particle) : List Particle :=
  ps.map (advanceParticle dt)

/-- Per-particle body of `dvs_correct` (lines 97–101 of `davis.c`):
half-kick `v ← v + (dt/2)·a`, then the RATTLE velocity projection
`λ = -(v·r)`, `v ← v + λ·r`. -/
noncomputable def correctParticle (dt : ℝ) (p : Particle) : Particle :=
  let v1 := vec_add p.v (vec_sclr (0.5 * dt) p.a)
  let lam := -vec_dot v1 p.r
  { p with v := vec_add v1 (vec_sclr lam p.r) }

/-- Mirrors `dvs_correct`. -/
noncomputable def dvs_correct (dt : ℝ) (ps : List Particle) : List Particle :=
  ps.map (correctParticle dt)

/-! ## The two-body force kernel (`dvs_calc_force`) -/

/-- Mirrors `dvs_calc_force` (lines 106–137 of `davis.c`).  Returns the
updated `p`, `q` and `Stats`.  The C function mutates through pointers;
the sweeps only ever call it on two distinct array slots. -/
noncomputable def dvs_calc_force (cutoff gamma : ℝ) (p q : Particle) (stats : Stats) :
    Particle × Particle × Stats :=
  let dr := vec_sub p.r q.r
  let r2 := vec_magnitude2 dr
  let stats1 : Stats := { stats with ww_counter := stats.ww_counter + 1 }
  let cutoff2 := cutoff * cutoff
  if r2 < cutoff2 then
    let r := Real.sqrt r2
    let stats2 : Stats :=
      { stats1 with
        real_ww_counter := stats1.real_ww_counter + 1
        E_pot := stats1.E_pot + (1 / r + r / cutoff2 - 2 / cutoff) }
    let force_mag := 1 / r2 - 1 / cutoff2
    let force := vec_sclr (force_mag / r) dr
    let dv := vec_sub p.v q.v
    let damping := vec_sclr (-gamma) dv
    let force2 := vec_add force damping
    ({ p with a := vec_add p.a force2 },
     { q with a := vec_sub q.a force2 },
     stats2)
  else
    (p, q, stats1)

/-- The total force (conservative plus damping) the kernel adds to `p.a`
and subtracts from `q.a` when the pair is within cutoff. -/
noncomputable def pairForce (cutoff gamma : ℝ) (p q : Particle) : Vec :=
  let dr := vec_sub p.r q.r
  let r2 := vec_magnitude2 dr
  let r := Real.sqrt r2
  vec_add (vec_sclr ((1 / r2 - 1 / (cutoff * cutoff)) / r) dr)
    (vec_sclr (-gamma) (vec_sub p.v q.v))

/-- The potential-energy increment of the kernel for a within-cutoff pair. -/
noncomputable def pairEnergy (cutoff : ℝ) (p q : Particle) : ℝ :=
  let r := Real.sqrt (vec_magnitude2 (vec_sub p.r q.r))
  1 / r + r / (cutoff * cutoff) - 2 / cutoff

/-- The shifted-Coulomb pair potential used by the force kernel
(`1.0/r + r/cutoff2 - 2.0/cutoff`, line 120 of `davis.c`). -/
noncomputable def pairPotential (rc r : ℝ) : ℝ := 1 / r + r / (rc * rc) - 2 / rc

/-- The radial force magnitude used by the force kernel
(`force_mag = 1.0/r2 - 1.0/cutoff2`, line 119 of `davis.c`), expressed in
the distance `r` with `r2 = r*r`. -/
noncomputable def forceMag (rc r : ℝ) : ℝ := 1 / (r * r) - 1 / (rc * rc)

theorem dvs_calc_force_spec (cutoff gamma : ℝ) (p q : Particle) (st : Stats) :
    dvs_calc_force cutoff gamma p q st =
      if vec_magnitude2 (vec_sub p.r q.r) < cutoff * cutoff then
        ({ p with a := vec_add p.a (pairForce cutoff gamma p q) },
         { q with a := vec_sub q.a (pairForce cutoff gamma p q) },
         { ww_counter := st.ww_counter + 1
           real_ww_counter := st.real_ww_counter + 1
           E_pot := st.E_pot + pairEnergy cutoff p q })
      else
        (p, q, { st with ww_counter := st.ww_counter + 1 }) := by
  simp only [dvs_calc_force, pairForce, pairEnergy]

theorem pairForce_antisymm (cutoff gamma : ℝ) (p q : Particle) :
    pairForce cutoff gamma q p = vec_neg (pairForce cutoff gamma p q) := by
  simp only [pairForce]
  rw [vec_magnitude2_sub_comm q.r p.r]
  set m := vec_magnitude2 (vec_sub p.r q.r) with hm
  ext <;> simp [vec_add, vec_sclr, vec_sub, vec_neg] <;> ring

theorem pairEnergy_symm (cutoff : ℝ) (p q : Particle) :
    pairEnergy cutoff q p = pairEnergy cutoff p q := by
  simp only [pairEnergy, vec_magnitude2_sub_comm q.r p.r]

/-! ## Claim C1: `advance` keeps particles on the unit sphere -/

/-- C1: if every particle starts with `|r| = 1` and the RATTLE
discriminant `1 − |r_predicted|² + (r_old·r_predicted)²` is non-negative
for the chosen `dt`, then after `dvs_advance` every particle again
satisfies `|r|² = 1` (exactly, in real arithmetic), the projection being
`r ← r + λ·r_old` with `λ = −(r_old·r) + √(1 − |r|² + (r_old·r)²)`. -/
theorem advance_sphere_preserved (dt : ℝ) (ps : List Particle)
    (h1 : ∀ p ∈ ps, vec_magnitude2 p.r = 1)
    (h2 : ∀ p ∈ ps, 0 ≤ advDisc dt p) :
    ∀ q ∈ dvs_advance dt ps, vec_magnitude2 q.r = 1 := by
  intro q hq
  simp only [dvs_advance, List.mem_map] at hq
  obtain ⟨p, hp, rfl⟩ := hq
  have hr : vec_magnitude2 p.r = 1 := h1 p hp
  have hD : 0 ≤ advDisc dt p := h2 p hp
  show vec_magnitude2 (vec_add (advR1 dt p) (vec_sclr (advLambda dt p) p.r)) = 1
  rw [vec_magnitude2_add_sclr, hr]
  rw [vec_dot_comm (advR1 dt p) p.r]
  unfold advLambda
  set d := vec_dot p.r (advR1 dt p) with hd
  set s := vec_magnitude2 (advR1 dt p) with hsdef
  have hDdef : advDisc dt p = 1 - s + d * d := rfl
  have hq : Real.sqrt (advDisc dt p) * Real.sqrt (advDisc dt p) = 1 - s + d * d := by
    rw [Real.mul_self_sqrt hD, hDdef]
  linear_combination hq

/-- Witness for `advance_sphere_preserved` at a concrete input: one
particle at rest at `(1,0,0)` with `dt = 1`. -/
theorem advance_sphere_preserved_witness :
    (∀ p ∈ [({ r := ⟨1, 0, 0⟩, v := VEC_ZERO, a := VEC_ZERO, next := -1 } : Particle)],
        vec_magnitude2 p.r = 1) ∧
    (∀ p ∈ [({ r := ⟨1, 0, 0⟩, v := VEC_ZERO, a := VEC_ZERO, next := -1 } : Particle)],
        0 ≤ advDisc 1 p) ∧
    (∀ q ∈ dvs_advance 1
        [({ r := ⟨1, 0, 0⟩, v := VEC_ZERO, a := VEC_ZERO, next := -1 } : Particle)],
        vec_magnitude2 q.r = 1) := by
  have hm : ∀ p ∈ [({ r := ⟨1, 0, 0⟩, v := VEC_ZERO, a := VEC_ZERO, next := -1 } : Particle)],
      vec_magnitude2 p.r = 1 := by
    intro p hp
    simp only [List.mem_singleton] at hp
    subst hp
    norm_num [vec_magnitude2, vec_dot]
  have hd : ∀ p ∈ [({ r := ⟨1, 0, 0⟩, v := VEC_ZERO, a := VEC_ZERO, next := -1 } : Particle)],
      0 ≤ advDisc 1 p := by
    intro p hp
    simp only [List.mem_singleton] at hp
    subst hp
    norm_num [advDisc, advR1, advV1, vec_add, vec_sclr, vec_dot, VEC_ZERO]
  exact ⟨hm, hd, advance_sphere_preserved 1 _ hm hd⟩

/-! ## Claim C2: `correct` makes velocities tangent -/

/-- C2: if every particle has `|r| = 1`, then after `dvs_correct` every
particle satisfies `r · v = 0` exactly (in real arithmetic), achieved by
the half-kick `v ← v + (dt/2)·a` followed by `v ← v + λ·r` with
`λ = −(v·r)`. -/
theorem correct_velocity_tangent (dt : ℝ) (ps : List Particle)
    (h1 : ∀ p ∈ ps, vec_magnitude2 p.r = 1) :
    ∀ q ∈ dvs_correct dt ps, vec_dot q.r q.v = 0 := by
  intro q hq
  simp only [dvs_correct, List.mem_map] at hq
  obtain ⟨p, hp, rfl⟩ := hq
  have hr : vec_magnitude2 p.r = 1 := h1 p hp
  simp only [correctParticle]
  set v1 := vec_add p.v (vec_sclr (0.5 * dt) p.a)
  have expand : vec_dot p.r (vec_add v1 (vec_sclr (-vec_dot v1 p.r) p.r)) =
      vec_dot p.r v1 + (-vec_dot v1 p.r) * vec_magnitude2 p.r := by
    simp [vec_dot, vec_add, vec_sclr, vec_magnitude2]; ring
  rw [expand, hr, vec_dot_comm p.r v1]
  ring

/-- Witness for `correct_velocity_tangent` at a concrete input. -/
theorem correct_velocity_tangent_witness :
    (∀ p ∈ [({ r := ⟨0, 1, 0⟩, v := ⟨2, 3, 4⟩, a := ⟨1, 1, 1⟩, next := 0 } : Particle)],
        vec_magnitude2 p.r = 1) ∧
    (∀ q ∈ dvs_correct 2
        [({ r := ⟨0, 1, 0⟩, v := ⟨2, 3, 4⟩, a := ⟨1, 1, 1⟩, next := 0 } : Particle)],
        vec_dot q.r q.v = 0) := by
  have hm : ∀ p ∈ [({ r := ⟨0, 1, 0⟩, v := ⟨2, 3, 4⟩, a := ⟨1, 1, 1⟩, next := 0 } : Particle)],
      vec_magnitude2 p.r = 1 := by
    intro p hp
    simp only [List.mem_singleton] at hp
    subst hp
    norm_num [vec_magnitude2, vec_dot]
  exact ⟨hm, correct_velocity_tangent 2 _ hm⟩

/-! ## Claim C3: the force kernel -/

/-- C3: on each invocation the kernel increments `ww_counter`; if
`|p.r − q.r|² ≥ rc²` nothing else changes; otherwise it also increments
`real_ww_counter`, adds `F + D` to `p.a` and subtracts the same vector
from `q.a`, where `F = ((1/r² − 1/rc²)/r)·(p.r − q.r)` with
`r = |p.r − q.r|`, `D = −γ·(p.v − q.v)`, and adds `1/r + r/rc² − 2/rc`
to `E_pot`. -/
theorem calc_force_cases (p q : Particle) (rc gamma : ℝ) (st : Stats) :
    dvs_calc_force rc gamma p q st =
      if vec_magnitude2 (vec_sub p.r q.r) < rc * rc then
        (let r := Real.sqrt (vec_magnitude2 (vec_sub p.r q.r))
         let F := vec_sclr ((1 / (r * r) - 1 / (rc * rc)) / r) (vec_sub p.r q.r)
         let D := vec_sclr (-gamma) (vec_sub p.v q.v)
         ({ p with a := vec_add p.a (vec_add F D) },
          { q with a := vec_sub q.a (vec_add F D) },
          { ww_counter := st.ww_counter + 1
            real_ww_counter := st.real_ww_counter + 1
            E_pot := st.E_pot + (1 / r + r / (rc * rc) - 2 / rc) }))
      else
        (p, q, { st with ww_counter := st.ww_counter + 1 }) := by
  have hr2 : Real.sqrt (vec_magnitude2 (vec_sub p.r q.r)) *
      Real.sqrt (vec_magnitude2 (vec_sub p.r q.r)) = vec_magnitude2 (vec_sub p.r q.r) :=
    Real.mul_self_sqrt (vec_magnitude2_nonneg _)
  simp only [dvs_calc_force]
  split
  · rw [hr2]
  · rfl

/-! ## Claim C7: the shifted-Coulomb potential -/

/-- C7: for every `rc > 0` the pair potential `E(r) = 1/r + r/rc² − 2/rc`
used by the force kernel satisfies `E(rc) = 0`; the kernel force magnitude
vanishes at `r = rc`; and for every `r ∈ (0, rc]` the derivative satisfies
`dE/dr = −(1/r² − 1/rc²)`, i.e. minus the radial force magnitude applied
by the kernel. -/
theorem pairPotential_shifted_coulomb (rc : ℝ) (h : 0 < rc) :
    pairPotential rc rc = 0 ∧ forceMag rc rc = 0 ∧
      ∀ r : ℝ, 0 < r → r ≤ rc →
        HasDerivAt (fun s => pairPotential rc s) (-forceMag rc r) r := by
  refine ⟨?_, ?_, ?_⟩
  · unfold pairPotential
    field_simp
    ring
  · unfold forceMag
    ring
  · intro r hr _
    have h1 : HasDerivAt (fun s : ℝ => 1 / s) (-(r ^ 2)⁻¹) r := by
      simpa [one_div] using hasDerivAt_inv (ne_of_gt hr)
    have h2 : HasDerivAt (fun s : ℝ => s / (rc * rc)) (1 / (rc * rc)) r := by
      simpa using (hasDerivAt_id r).div_const (rc * rc)
    have h3 : HasDerivAt (fun s : ℝ => 1 / s + s / (rc * rc) - 2 / rc)
        (-(r ^ 2)⁻¹ + 1 / (rc * rc) - 0) r :=
      (h1.add h2).sub (hasDerivAt_const r (2 / rc))
    have heq : -forceMag rc r = -(r ^ 2)⁻¹ + 1 / (rc * rc) - 0 := by
      unfold forceMag
      have : r ^ 2 = r * r := sq r
      rw [this]
      field_simp
      ring
    rw [heq]
    simpa only [pairPotential] using h3

/-- Witness for `pairPotential_shifted_coulomb` at `rc = 1`. -/
theorem pairPotential_shifted_coulomb_witness :
    (0 : ℝ) < 1 ∧
      (pairPotential 1 1 = 0 ∧ forceMag 1 1 = 0 ∧
        ∀ r : ℝ, 0 < r → r ≤ 1 →
          HasDerivAt (fun s => pairPotential 1 s) (-forceMag 1 r) r) :=
  ⟨by norm_num, pairPotential_shifted_coulomb 1 (by norm_num)⟩

/-! ## Pair iteration machinery

`dvs_calc_forces` and `dvs_calc_brute_forces` both consist of loops whose
only state mutation is a `dvs_calc_force` call on two distinct array
slots.  The kernel never modifies positions, velocities or `next` fields
(`runPair_preserves` below), so the iteration sequence of each sweep can
be computed up front as a list of ordered index pairs which is then folded
with the kernel. -/

/-- One kernel invocation on slots `pr.1`, `pr.2` of the particle array
(the state threading of `dvs_calc_force(ps + i, ps + j, ...)`).  The
bounds check merely totalizes the model; the sweeps only generate
in-bounds pairs. -/
noncomputable def runPair (cutoff gamma : ℝ) (st : List Particle × Stats)
    (pr : ℕ × ℕ) : List Particle × Stats :=
  if h : pr.1 < st.1.length ∧ pr.2 < st.1.length then
    let p := st.1.get ⟨pr.1, h.1⟩
    let q := st.1.get ⟨pr.2, h.2⟩
    let res := dvs_calc_force cutoff gamma p q st.2
    ((st.1.set pr.1 res.1).set pr.2 res.2.1, res.2.2)
  else st

/-- Folding the kernel over a list of index pairs. -/
noncomputable def runPairs (cutoff gamma : ℝ) (st : List Particle × Stats)
    (prs : List (ℕ × ℕ)) : List Particle × Stats :=
  prs.foldl (runPair cutoff gamma) st

/-- The ordered pairs visited by `dvs_calc_brute_forces` (lines 230–234 of
`davis.c`): `i` over `[first, last)`, `j` over `[i+1, nparticles)`. -/
def brutePairs (nparticles first last : ℕ) : List (ℕ × ℕ) :=
  (List.range' first (last - first)).flatMap fun i =>
    (List.range' (i + 1) (nparticles - (i + 1))).map fun j => (i, j)

/-- Mirrors `dvs_calc_brute_forces`. -/
noncomputable def dvs_calc_brute_forces (nparticles : ℕ) (ps : List Particle)
    (first last : ℕ) (cutoff gamma : ℝ) (st : Stats) : List Particle × Stats :=
  runPairs cutoff gamma (ps, st) (brutePairs nparticles first last)

/-- Walk of an intrusive linked list threaded through `Particle.next`,
starting at head index `h` and terminated by `-1`
(`for (i = cells[c]; i != -1; i = ps[i].next)`).  The walk stops at any
out-of-range index (after `dvs_populate_cells` only `-1` occurs) and
carries fuel to make it total; fuel `ps.length` is enough for every
well-formed list. -/
def chainList (ps : List Particle) : ℕ → ℤ → List ℕ
  | 0, _ => []
  | fuel + 1, h =>
    if hh : 0 ≤ h ∧ h.toNat < ps.length then
      h.toNat :: chainList ps fuel (ps.get ⟨h.toNat, hh.2⟩).next
    else []

/-- Ordered pairs of a list with the first component strictly earlier
(the same-cell double loop: `i` over the list, `j` over the suffix
starting at `ps[i].next`). -/
def suffixPairs : List ℕ → List (ℕ × ℕ)
  | [] => []
  | i :: rest => (rest.map fun j => (i, j)) ++ suffixPairs rest

/-- Cartesian product of two index lists (the distinct-cell double loop). -/
def crossPairs (l1 l2 : List ℕ) : List (ℕ × ℕ) :=
  l1.flatMap fun i => l2.map fun j => (i, j)

/-- The clipped neighbor coordinate range
`[MAX(0, t-1), MIN(L, t+2))` of the sweep stencil. -/
def neighborRange (L t : ℕ) : List ℕ :=
  List.range' (t - 1) (min L (t + 2) - (t - 1))

/-- Cell number of coordinates `(x, y, z)`: `x + L*y + L*L*z`. -/
def encZ (L : ℕ) (x y z : ℕ) : ℤ := (x : ℤ) + L * y + L * L * z

/-- Pairs generated for one `(this_cell, other_cell)` combination of
`dvs_calc_forces` (lines 197–211 of `davis.c`). -/
def otherBlock (ps : List Particle) (cells : ℤ → ℤ)
    (thisCell otherCell : ℤ) : List (ℕ × ℕ) :=
  if otherCell < thisCell then []
  else if thisCell = otherCell then
    suffixPairs (chainList ps ps.length (cells thisCell))
  else
    crossPairs (chainList ps ps.length (cells thisCell))
      (chainList ps ps.length (cells otherCell))

/-- Pairs generated for one main cell `(x, y, z)` of `dvs_calc_forces`:
skip if the cell is empty or outside `[cell0, cell1)`, otherwise sweep the
clipped 27-cell stencil. -/
def thisBlock (L : ℕ) (ps : List Particle) (cells : ℤ → ℤ)
    (cell0 cell1 : ℤ) (x y z : ℕ) : List (ℕ × ℕ) :=
  if cells (encZ L x y z) = -1 then []
  else if encZ L x y z < cell0 ∨ cell1 ≤ encZ L x y z then []
  else
    (neighborRange L z).flatMap fun nnz =>
      (neighborRange L y).flatMap fun nny =>
        (neighborRange L x).flatMap fun nnx =>
          otherBlock ps cells (encZ L x y z) (encZ L nnx nny nnz)

/-- The full pair sequence of `dvs_calc_forces` (triple loop over
`(z, y, x) ∈ [0, L)³`). -/
def sweepPairs (L : ℕ) (ps : List Particle) (cells : ℤ → ℤ)
    (cell0 cell1 : ℤ) : List (ℕ × ℕ) :=
  (List.range L).flatMap fun z =>
    (List.range L).flatMap fun y =>
      (List.range L).flatMap fun x =>
        thisBlock L ps cells cell0 cell1 x y z

/-- Mirrors `dvs_calc_forces` (lines 179–218 of `davis.c`). -/
noncomputable def dvs_calc_forces (ps : List Particle) (cl : Cells)
    (cell0 cell1 : ℤ) (cutoff gamma : ℝ) (st : Stats) : List Particle × Stats :=
  runPairs cutoff gamma (ps, st) (sweepPairs cl.binning ps cl.cells cell0 cell1)

/-! ## Cell binning (`dvs_populate_cells`) -/

/-- One clamped bin index:
`MAX(0, MIN((int)floor((c + 1.0)/dr), L-1))` (lines 168–170 of `davis.c`). -/
noncomputable def binIndex (L : ℕ) (dr : ℝ) (c : ℝ) : ℤ :=
  max 0 (min ⌊(c + 1) / dr⌋ ((L : ℤ) - 1))

/-- Cell number of a position: `bin_x + bin_y*L + bin_z*L*L`. -/
noncomputable def cellNum (L : ℕ) (dr : ℝ) (r : Vec) : ℤ :=
  binIndex L dr r.x + binIndex L dr r.y * L + binIndex L dr r.z * L * L

/-- Loop body of `dvs_populate_cells`: push particle `i` onto the front of
its cell's list (`p->next = cells[c]; cells[c] = i`). -/
noncomputable def popStep (L : ℕ) (dr : ℝ) (st : List Particle × (ℤ → ℤ))
    (i : ℕ) : List Particle × (ℤ → ℤ) :=
  match st.1[i]? with
  | none => st
  | some p =>
      (st.1.set i { p with next := st.2 (cellNum L dr p.r) },
       Function.update st.2 (cellNum L dr p.r) (i : ℤ))

/-- Mirrors `dvs_populate_cells` (lines 158–176 of `davis.c`): clear all
heads, then insert the particles in index order. -/
noncomputable def dvs_populate_cells (ps : List Particle) (cl : Cells) :
    List Particle × Cells :=
  let cl1 := Cells_clear cl
  let res := (List.range ps.length).foldl (popStep cl.binning cl.dr) (ps, cl1.cells)
  (res.1, { cl1 with cells := res.2 })

/-! ## `dvs_collect_forces` -/

/-- Mirrors `dvs_collect_forces` (lines 254–259 of `davis.c`):
`accu[i].a += part[i].a` for `i ∈ [0, n)`. -/
noncomputable def dvs_collect_forces (n : ℕ) (accu part : List Particle) :
    List Particle :=
  (List.range n).foldl
    (fun acc i =>
      match acc[i]?, part[i]? with
      | some ai, some pi => acc.set i { ai with a := vec_add ai.a pi.a }
      | _, _ => acc)
    accu

/-! ## Per-pair effect functions

Positions and velocities are invariant during a sweep, so the total effect
of a pair list on particle `k`, on the pair counters and on the potential
energy is a sum of per-pair contributions computed from the initial
array. -/

/-- Acceleration contribution of processing ordered pair `pr` to particle
`k` (zero for an out-of-cutoff pair). -/
noncomputable def contribA (cutoff gamma : ℝ) (ps : List Particle)
    (k : ℕ) (pr : ℕ × ℕ) : Vec :=
  let p := getP ps pr.1
  let q := getP ps pr.2
  if vec_magnitude2 (vec_sub p.r q.r) < cutoff * cutoff then
    if k = pr.1 then pairForce cutoff gamma p q
    else if k = pr.2 then vec_neg (pairForce cutoff gamma p q)
    else VEC_ZERO
  else VEC_ZERO

/-- Within-cutoff indicator of an ordered pair. -/
noncomputable def wwContrib (cutoff : ℝ) (ps : List Particle) (pr : ℕ × ℕ) : ℕ :=
  if vec_magnitude2 (vec_sub (getP ps pr.1).r (getP ps pr.2).r) < cutoff * cutoff
  then 1 else 0

/-- Potential-energy contribution of an ordered pair. -/
noncomputable def epContrib (cutoff : ℝ) (ps : List Particle) (pr : ℕ × ℕ) : ℝ :=
  if vec_magnitude2 (vec_sub (getP ps pr.1).r (getP ps pr.2).r) < cutoff * cutoff
  then pairEnergy cutoff (getP ps pr.1) (getP ps pr.2) else 0

/-! ## Indexing lemmas -/

theorem vec_add_zero (a : Vec) : vec_add a VEC_ZERO = a := by
  ext <;> simp [vec_add, VEC_ZERO]

theorem getP_eq_getElem (ps : List Particle) (i : ℕ) (h : i < ps.length) :
    getP ps i = ps[i] := by
  simp [getP, List.getD_eq_getElem?_getD, List.getElem?_eq_getElem h]

theorem getP_set (ps : List Particle) (i k : ℕ) (x : Particle) :
    getP (ps.set i x) k =
      if k = i ∧ i < ps.length then x else getP ps k := by
  simp only [getP, List.getD_eq_getElem?_getD, List.getElem?_set]
  by_cases h1 : i = k
  · subst h1
    by_cases h2 : i < ps.length
    · simp [h2]
    · simp [h2, List.getElem?_eq_none (not_lt.mp h2)]
  · have h3 : ¬(k = i ∧ i < ps.length) := fun hc => h1 hc.1.symm
    simp [h1, h3]

theorem getP_set2 (ps : List Particle) (i j k : ℕ) (x y : Particle)
    (hi : i < ps.length) (hj : j < ps.length) :
    getP ((ps.set i x).set j y) k =
      if k = j then y else if k = i then x else getP ps k := by
  rw [getP_set, getP_set]
  simp [List.length_set, hi, hj]

/-! ## Congruence of per-pair effects in the immutable fields -/

theorem pairForce_congr (cutoff gamma : ℝ) (p1 q1 p2 q2 : Particle)
    (h1 : p1.r = p2.r) (h2 : q1.r = q2.r) (h3 : p1.v = p2.v) (h4 : q1.v = q2.v) :
    pairForce cutoff gamma p1 q1 = pairForce cutoff gamma p2 q2 := by
  simp only [pairForce, h1, h2, h3, h4]

theorem pairEnergy_congr (cutoff : ℝ) (p1 q1 p2 q2 : Particle)
    (h1 : p1.r = p2.r) (h2 : q1.r = q2.r) :
    pairEnergy cutoff p1 q1 = pairEnergy cutoff p2 q2 := by
  simp only [pairEnergy, h1, h2]

theorem contribA_congr (cutoff gamma : ℝ) (ps1 ps2 : List Particle)
    (hr : ∀ m, (getP ps1 m).r = (getP ps2 m).r)
    (hv : ∀ m, (getP ps1 m).v = (getP ps2 m).v)
    (k : ℕ) (pr : ℕ × ℕ) :
    contribA cutoff gamma ps1 k pr = contribA cutoff gamma ps2 k pr := by
  have hF : pairForce cutoff gamma (getP ps1 pr.1) (getP ps1 pr.2) =
      pairForce cutoff gamma (getP ps2 pr.1) (getP ps2 pr.2) :=
    pairForce_congr _ _ _ _ _ _ (hr pr.1) (hr pr.2) (hv pr.1) (hv pr.2)
  simp only [contribA, hr pr.1, hr pr.2, hF]

theorem wwContrib_congr (cutoff : ℝ) (ps1 ps2 : List Particle)
    (hr : ∀ m, (getP ps1 m).r = (getP ps2 m).r) (pr : ℕ × ℕ) :
    wwContrib cutoff ps1 pr = wwContrib cutoff ps2 pr := by
  simp only [wwContrib, hr pr.1, hr pr.2]

theorem epContrib_congr (cutoff : ℝ) (ps1 ps2 : List Particle)
    (hr : ∀ m, (getP ps1 m).r = (getP ps2 m).r) (pr : ℕ × ℕ) :
    epContrib cutoff ps1 pr = epContrib cutoff ps2 pr := by
  have hE : pairEnergy cutoff (getP ps1 pr.1) (getP ps1 pr.2) =
      pairEnergy cutoff (getP ps2 pr.1) (getP ps2 pr.2) :=
    pairEnergy_congr _ _ _ _ _ (hr pr.1) (hr pr.2)
  simp only [epContrib, hr pr.1, hr pr.2, hE]

/-! ## Effect of a single kernel invocation -/

theorem runPair_spec (cutoff gamma : ℝ) (ps : List Particle) (st : Stats)
    (pr : ℕ × ℕ) (hi : pr.1 < ps.length) (hj : pr.2 < ps.length)
    (hne : pr.1 ≠ pr.2) :
    (runPair cutoff gamma (ps, st) pr).1.length = ps.length ∧
    (∀ k, (getP (runPair cutoff gamma (ps, st) pr).1 k).r = (getP ps k).r) ∧
    (∀ k, (getP (runPair cutoff gamma (ps, st) pr).1 k).v = (getP ps k).v) ∧
    (∀ k, (getP (runPair cutoff gamma (ps, st) pr).1 k).next = (getP ps k).next) ∧
    (∀ k, (getP (runPair cutoff gamma (ps, st) pr).1 k).a =
      vec_add (getP ps k).a (contribA cutoff gamma ps k pr)) ∧
    (runPair cutoff gamma (ps, st) pr).2.ww_counter = st.ww_counter + 1 ∧
    (runPair cutoff gamma (ps, st) pr).2.real_ww_counter =
      st.real_ww_counter + wwContrib cutoff ps pr ∧
    (runPair cutoff gamma (ps, st) pr).2.E_pot = st.E_pot + epContrib cutoff ps pr := by
  have hg1 : getP ps pr.1 = ps[pr.1] := getP_eq_getElem ps pr.1 hi
  have hg2 : getP ps pr.2 = ps[pr.2] := getP_eq_getElem ps pr.2 hj
  simp only [runPair, dif_pos (And.intro hi hj), List.get_eq_getElem,
    dvs_calc_force_spec]
  by_cases hw : vec_magnitude2 (vec_sub ps[pr.1].r ps[pr.2].r) < cutoff * cutoff
  · simp only [if_pos hw]
    refine ⟨by simp, ?_, ?_, ?_, ?_, by simp, ?_, ?_⟩
    · intro k
      rw [getP_set2 ps pr.1 pr.2 k _ _ hi hj]
      split_ifs with h1 h2
      · subst h1; rw [hg2]
      · subst h2; rw [hg1]
      · rfl
    · intro k
      rw [getP_set2 ps pr.1 pr.2 k _ _ hi hj]
      split_ifs with h1 h2
      · subst h1; rw [hg2]
      · subst h2; rw [hg1]
      · rfl
    · intro k
      rw [getP_set2 ps pr.1 pr.2 k _ _ hi hj]
      split_ifs with h1 h2
      · subst h1; rw [hg2]
      · subst h2; rw [hg1]
      · rfl
    · intro k
      rw [getP_set2 ps pr.1 pr.2 k _ _ hi hj]
      simp only [contribA, hg1, hg2, if_pos hw]
      by_cases h1 : k = pr.2
      · subst h1
        have h2 : ¬pr.2 = pr.1 := fun hc => hne hc.symm
        rw [if_pos rfl, if_neg h2, if_pos rfl, vec_sub_eq_add_neg, hg2]
      · by_cases h2 : k = pr.1
        · subst h2
          rw [if_neg h1, if_pos rfl, if_pos rfl, hg1]
        · rw [if_neg h1, if_neg h2, if_neg h2, if_neg h1, vec_add_zero]
    · simp [wwContrib, hg1, hg2, if_pos hw]
    · simp [epContrib, hg1, hg2, if_pos hw]
  · simp only [if_neg hw]
    refine ⟨by simp, ?_, ?_, ?_, ?_, by simp, ?_, ?_⟩
    · intro k
      rw [getP_set2 ps pr.1 pr.2 k _ _ hi hj]
      split_ifs with h1 h2
      · subst h1; rw [hg2]
      · subst h2; rw [hg1]
      · rfl
    · intro k
      rw [getP_set2 ps pr.1 pr.2 k _ _ hi hj]
      split_ifs with h1 h2
      · subst h1; rw [hg2]
      · subst h2; rw [hg1]
      · rfl
    · intro k
      rw [getP_set2 ps pr.1 pr.2 k _ _ hi hj]
      split_ifs with h1 h2
      · subst h1; rw [hg2]
      · subst h2; rw [hg1]
      · rfl
    · intro k
      rw [getP_set2 ps pr.1 pr.2 k _ _ hi hj]
      simp only [contribA, hg1, hg2, if_neg hw, vec_add_zero]
      split_ifs with h1 h2
      · subst h1; rw [hg2]
      · subst h2; rw [hg1]
      · rfl
    · simp [wwContrib, hg1, hg2, if_neg hw]
    · simp [epContrib, hg1, hg2, if_neg hw]

/-! ## Effect of a whole pair list -/

theorem runPairs_spec (cutoff gamma : ℝ) (prs : List (ℕ × ℕ)) :
    ∀ (ps : List Particle) (st : Stats),
    (∀ pr ∈ prs, pr.1 < ps.length ∧ pr.2 < ps.length ∧ pr.1 ≠ pr.2) →
    (runPairs cutoff gamma (ps, st) prs).1.length = ps.length ∧
    (∀ k, (getP (runPairs cutoff gamma (ps, st) prs).1 k).r = (getP ps k).r) ∧
    (∀ k, (getP (runPairs cutoff gamma (ps, st) prs).1 k).v = (getP ps k).v) ∧
    (∀ k, (getP (runPairs cutoff gamma (ps, st) prs).1 k).next = (getP ps k).next) ∧
    (∀ k, (getP (runPairs cutoff gamma (ps, st) prs).1 k).a =
      vec_add (getP ps k).a (prs.map (contribA cutoff gamma ps k)).sum) ∧
    (runPairs cutoff gamma (ps, st) prs).2.ww_counter =
      st.ww_counter + prs.length ∧
    (runPairs cutoff gamma (ps, st) prs).2.real_ww_counter =
      st.real_ww_counter + (prs.map (wwContrib cutoff ps)).sum ∧
    (runPairs cutoff gamma (ps, st) prs).2.E_pot =
      st.E_pot + (prs.map (epContrib cutoff ps)).sum := by
  induction prs with
  | nil =>
    intro ps st hval
    refine ⟨rfl, fun k => rfl, fun k => rfl, fun k => rfl, ?_, by simp [runPairs],
      by simp [runPairs], by simp [runPairs]⟩
    intro k
    simp only [List.map_nil, List.sum_nil, vec_zero_def, vec_add_zero]
    rfl
  | cons pr rest ih =>
    intro ps st hval
    obtain ⟨hi, hj, hne⟩ := hval pr (List.mem_cons_self pr rest)
    obtain ⟨hlen, hr, hv, hnext, ha, hww, hrww, hE⟩ :=
      runPair_spec cutoff gamma ps st pr hi hj hne
    rcases hsp : runPair cutoff gamma (ps, st) pr with ⟨ps1, st1⟩
    rw [hsp] at hlen hr hv hnext ha hww hrww hE
    dsimp only at hlen hr hv hnext ha hww hrww hE
    have hval1 : ∀ p2 ∈ rest, p2.1 < ps1.length ∧ p2.2 < ps1.length ∧ p2.1 ≠ p2.2 := by
      intro p2 hp2
      rw [hlen]
      exact hval p2 (List.mem_cons_of_mem _ hp2)
    obtain ⟨l1, r1, v1, n1, a1, w1, rw1, e1⟩ := ih ps1 st1 hval1
    have hgoal : runPairs cutoff gamma (ps, st) (pr :: rest) =
        runPairs cutoff gamma (ps1, st1) rest := by
      rw [← hsp]; rfl
    rw [hgoal]
    refine ⟨l1.trans hlen, fun k => (r1 k).trans (hr k), fun k => (v1 k).trans (hv k),
      fun k => (n1 k).trans (hnext k), ?_, ?_, ?_, ?_⟩
    · intro k
      have hmapA : rest.map (contribA cutoff gamma ps1 k) =
          rest.map (contribA cutoff gamma ps k) :=
        List.map_congr_left fun pr2 _ => contribA_congr cutoff gamma ps1 ps hr hv k pr2
      rw [a1 k, hmapA, ha k, List.map_cons, List.sum_cons]
      simp only [← vec_add_def]
      rw [add_assoc]
    · rw [w1, hww, List.length_cons]
      omega
    · have hmapW : rest.map (wwContrib cutoff ps1) = rest.map (wwContrib cutoff ps) :=
        List.map_congr_left fun pr2 _ => wwContrib_congr cutoff ps1 ps hr pr2
      rw [rw1, hmapW, hrww, List.map_cons, List.sum_cons]
      omega
    · have hmapE : rest.map (epContrib cutoff ps1) = rest.map (epContrib cutoff ps) :=
        List.map_congr_left fun pr2 _ => epContrib_congr cutoff ps1 ps hr pr2
      rw [e1, hmapE, hE, List.map_cons, List.sum_cons]
      ring

/-! ## Linked-list chain lemmas -/

theorem chainList_zero (ps : List Particle) (h : ℤ) : chainList ps 0 h = [] := rfl

theorem chainList_succ (ps : List Particle) (f : ℕ) (h : ℤ) :
    chainList ps (f + 1) h =
      if hh : 0 ≤ h ∧ h.toNat < ps.length then
        h.toNat :: chainList ps f (ps.get ⟨h.toNat, hh.2⟩).next
      else [] := rfl

theorem chainList_of_neg (ps : List Particle) (fuel : ℕ) (h : ℤ) (hneg : h < 0) :
    chainList ps fuel h = [] := by
  cases fuel with
  | zero => rfl
  | succ f =>
    rw [chainList_succ, dif_neg]
    rintro ⟨h0, _⟩
    omega

theorem chainList_head_nonneg (ps : List Particle) (fuel : ℕ) (h : ℤ)
    (hne : chainList ps fuel h ≠ []) : 0 ≤ h := by
  by_contra hc
  exact hne (chainList_of_neg ps fuel h (by omega))

theorem chainList_set_of_not_mem (ps : List Particle) (m : ℕ) (x : Particle) :
    ∀ (fuel : ℕ) (h : ℤ), m ∉ chainList ps fuel h →
      chainList (ps.set m x) fuel h = chainList ps fuel h := by
  intro fuel
  induction fuel with
  | zero => intro h _; rfl
  | succ f ihf =>
    intro h hmem
    by_cases hc : 0 ≤ h ∧ h.toNat < ps.length
    · rw [chainList_succ, dif_pos hc] at hmem
      have hhm : h.toNat ≠ m := fun he => hmem (he ▸ List.mem_cons_self _ _)
      have hc2 : 0 ≤ h ∧ h.toNat < (ps.set m x).length := by
        simpa [List.length_set] using hc
      rw [chainList_succ, dif_pos hc2, chainList_succ, dif_pos hc]
      have hget : (ps.set m x).get ⟨h.toNat, hc2.2⟩ = ps.get ⟨h.toNat, hc.2⟩ := by
        simp only [List.get_eq_getElem]
        exact List.getElem_set_ne (fun he => hhm he.symm) _
      rw [hget]
      exact congrArg _ (ihf _ fun hmm => hmem (List.mem_cons_of_mem _ hmm))
    · have hc2 : ¬(0 ≤ h ∧ h.toNat < (ps.set m x).length) := by
        simpa [List.length_set] using hc
      rw [chainList_succ, dif_neg hc2, chainList_succ, dif_neg hc]

/-! ## Characterization of `dvs_populate_cells` -/

/-- The first `m` insertion steps of `dvs_populate_cells`. -/
noncomputable def popLoop (L : ℕ) (dr : ℝ) (ps : List Particle) (m : ℕ) :
    List Particle × (ℤ → ℤ) :=
  (List.range m).foldl (popStep L dr) (ps, fun _ => -1)

theorem popLoop_succ (L : ℕ) (dr : ℝ) (ps : List Particle) (m : ℕ) :
    popLoop L dr ps (m + 1) = popStep L dr (popLoop L dr ps m) m := by
  unfold popLoop
  rw [List.range_succ, List.foldl_append]
  rfl

theorem dvs_populate_cells_eq_popLoop (ps : List Particle) (cl : Cells) :
    dvs_populate_cells ps cl =
      ((popLoop cl.binning cl.dr ps ps.length).1,
       { dr := cl.dr, binning := cl.binning,
         cells := (popLoop cl.binning cl.dr ps ps.length).2 }) := rfl

theorem populate_invariant (L : ℕ) (dr : ℝ) (ps : List Particle) (m : ℕ) :
    m ≤ ps.length →
    (popLoop L dr ps m).1.length = ps.length ∧
    (∀ k, (getP (popLoop L dr ps m).1 k).r = (getP ps k).r ∧
          (getP (popLoop L dr ps m).1 k).v = (getP ps k).v ∧
          (getP (popLoop L dr ps m).1 k).a = (getP ps k).a) ∧
    (∀ k, m ≤ k → getP (popLoop L dr ps m).1 k = getP ps k) ∧
    (∀ c : ℤ, ∀ fuel, m ≤ fuel →
      chainList (popLoop L dr ps m).1 fuel ((popLoop L dr ps m).2 c) =
        ((List.range m).filter fun i => cellNum L dr (getP ps i).r == c).reverse) := by
  induction m with
  | zero =>
    intro _
    refine ⟨rfl, fun k => ⟨rfl, rfl, rfl⟩, fun k _ => rfl, ?_⟩
    intro c fuel _
    show chainList ps fuel (-1) = _
    rw [chainList_of_neg ps fuel (-1) (by norm_num)]
    simp
  | succ m ihm =>
    intro hm1
    have hmlt : m < ps.length := hm1
    obtain ⟨hlen, hfields, huntouched, hchains⟩ := ihm (Nat.le_of_lt hmlt)
    rcases hpl : popLoop L dr ps m with ⟨qs, cf⟩
    rw [hpl] at hlen hfields huntouched hchains
    dsimp only at hlen hfields huntouched hchains
    have hmq : m < qs.length := by rw [hlen]; exact hmlt
    have hq : qs[m]? = some (getP ps m) := by
      rw [List.getElem?_eq_getElem hmq]
      have := huntouched m le_rfl
      rw [getP_eq_getElem qs m hmq] at this
      rw [this]
    have hstep : popLoop L dr ps (m + 1) =
        (qs.set m { getP ps m with next := cf (cellNum L dr (getP ps m).r) },
         Function.update cf (cellNum L dr (getP ps m).r) (m : ℤ)) := by
      rw [popLoop_succ, hpl]
      simp only [popStep, hq]
    rw [hstep]
    dsimp only
    have hlen2 : (qs.set m { getP ps m with
        next := cf (cellNum L dr (getP ps m).r) }).length = ps.length := by
      rw [List.length_set, hlen]
    refine ⟨hlen2, ?_, ?_, ?_⟩
    · intro k
      rw [getP_set]
      by_cases hk : k = m ∧ m < qs.length
      · rw [if_pos hk]
        rw [hk.1]
        exact ⟨rfl, rfl, rfl⟩
      · rw [if_neg hk]
        exact hfields k
    · intro k hk
      rw [getP_set, if_neg]
      · exact huntouched k (by omega)
      · rintro ⟨hkm, _⟩
        omega
    · intro c fuel hfuel
      obtain ⟨f, rfl⟩ : ∃ f, fuel = f + 1 := ⟨fuel - 1, by omega⟩
      by_cases hc : c = cellNum L dr (getP ps m).r
      · subst hc
        rw [Function.update_same]
        have hcond : (0 : ℤ) ≤ (m : ℤ) ∧ (m : ℤ).toNat <
            (qs.set m { getP ps m with
              next := cf (cellNum L dr (getP ps m).r) }).length := by
          constructor
          · positivity
          · rw [Int.toNat_natCast, hlen2]
            exact hmlt
        rw [chainList_succ, dif_pos hcond]
        have hget : (qs.set m { getP ps m with
            next := cf (cellNum L dr (getP ps m).r) }).get
              ⟨(m : ℤ).toNat, hcond.2⟩ =
            { getP ps m with next := cf (cellNum L dr (getP ps m).r) } := by
          simp only [List.get_eq_getElem, Int.toNat_natCast]
          exact List.getElem_set_self _
        rw [hget]
        have hchain0 := hchains (cellNum L dr (getP ps m).r) f (by omega)
        have hnm : m ∉ chainList qs f (cf (cellNum L dr (getP ps m).r)) := by
          rw [hchain0]
          intro hmm
          rw [List.mem_reverse, List.mem_filter, List.mem_range] at hmm
          omega
        rw [chainList_set_of_not_mem qs m _ f _ hnm, hchain0]
        rw [List.range_succ, List.filter_append, List.reverse_append]
        simp [Int.toNat_natCast]
      · rw [Function.update_noteq (fun he => hc he) _ _]
        have hchain0 := hchains c (f + 1) (by omega)
        have hnm : m ∉ chainList qs (f + 1) (cf c) := by
          rw [hchain0]
          intro hmm
          rw [List.mem_reverse, List.mem_filter, List.mem_range] at hmm
          omega
        rw [chainList_set_of_not_mem qs m _ (f + 1) _ hnm, hchain0]
        rw [List.range_succ, List.filter_append]
        have hfm : (List.filter (fun i => cellNum L dr (getP ps i).r == c) [m]) = [] := by
          simp only [List.filter_cons, List.filter_nil]
          rw [if_neg]
          intro hbeq
          have heq2 : cellNum L dr (getP ps m).r = c := by simpa using hbeq
          exact hc heq2.symm
        rw [hfm, List.append_nil]

theorem populate_length (ps : List Particle) (cl : Cells) :
    (dvs_populate_cells ps cl).1.length = ps.length := by
  rw [dvs_populate_cells_eq_popLoop]
  exact (populate_invariant cl.binning cl.dr ps ps.length le_rfl).1

theorem populate_fields (ps : List Particle) (cl : Cells) (k : ℕ) :
    (getP (dvs_populate_cells ps cl).1 k).r = (getP ps k).r ∧
    (getP (dvs_populate_cells ps cl).1 k).v = (getP ps k).v ∧
    (getP (dvs_populate_cells ps cl).1 k).a = (getP ps k).a := by
  rw [dvs_populate_cells_eq_popLoop]
  exact (populate_invariant cl.binning cl.dr ps ps.length le_rfl).2.1 k

theorem populate_chain_eq (ps : List Particle) (cl : Cells) (c : ℤ) :
    chainList (dvs_populate_cells ps cl).1 ps.length
        ((dvs_populate_cells ps cl).2.cells c) =
      ((List.range ps.length).filter fun i =>
        cellNum cl.binning cl.dr (getP ps i).r == c).reverse := by
  rw [dvs_populate_cells_eq_popLoop]
  exact (populate_invariant cl.binning cl.dr ps ps.length le_rfl).2.2.2 c
    ps.length le_rfl

theorem populate_chain_mem (ps : List Particle) (cl : Cells) (c : ℤ) (i : ℕ) :
    i ∈ chainList (dvs_populate_cells ps cl).1 ps.length
        ((dvs_populate_cells ps cl).2.cells c) ↔
      i < ps.length ∧ cellNum cl.binning cl.dr (getP ps i).r = c := by
  rw [populate_chain_eq, List.mem_reverse, List.mem_filter, List.mem_range]
  simp

theorem populate_chain_sorted (ps : List Particle) (cl : Cells) (c : ℤ) :
    List.Pairwise (fun a b => b < a)
      (chainList (dvs_populate_cells ps cl).1 ps.length
        ((dvs_populate_cells ps cl).2.cells c)) := by
  rw [populate_chain_eq, List.pairwise_reverse]
  exact (List.pairwise_lt_range ps.length).filter _

theorem populate_chain_nodup (ps : List Particle) (cl : Cells) (c : ℤ) :
    (chainList (dvs_populate_cells ps cl).1 ps.length
      ((dvs_populate_cells ps cl).2.cells c)).Nodup := by
  rw [populate_chain_eq]
  exact List.nodup_reverse.mpr ((List.nodup_range ps.length).filter _)

/-! ## Bounds on cell numbers -/

theorem binIndex_nonneg (L : ℕ) (dr c : ℝ) : 0 ≤ binIndex L dr c :=
  le_max_left 0 _

theorem binIndex_le (L : ℕ) (dr c : ℝ) (hL : 1 ≤ L) :
    binIndex L dr c ≤ (L : ℤ) - 1 := by
  unfold binIndex
  apply max_le
  · omega
  · exact min_le_right _ _

theorem cellNum_nonneg (L : ℕ) (dr : ℝ) (r : Vec) : 0 ≤ cellNum L dr r := by
  unfold cellNum
  have hx := binIndex_nonneg L dr r.x
  have hy := binIndex_nonneg L dr r.y
  have hz := binIndex_nonneg L dr r.z
  have hL0 : (0 : ℤ) ≤ (L : ℤ) := by positivity
  have h1 : 0 ≤ binIndex L dr r.y * L := mul_nonneg hy hL0
  have h2 : 0 ≤ binIndex L dr r.z * L * L := mul_nonneg (mul_nonneg hz hL0) hL0
  linarith

theorem cellNum_lt (L : ℕ) (dr : ℝ) (r : Vec) (hL : 1 ≤ L) :
    cellNum L dr r < (L : ℤ) ^ 3 := by
  unfold cellNum
  have hx := binIndex_le L dr r.x hL
  have hy := binIndex_le L dr r.y hL
  have hz := binIndex_le L dr r.z hL
  have hy0 := binIndex_nonneg L dr r.y
  have hz0 := binIndex_nonneg L dr r.z
  have hL1 : (1 : ℤ) ≤ (L : ℤ) := by exact_mod_cast hL
  nlinarith [mul_le_mul_of_nonneg_right hy (by linarith : (0 : ℤ) ≤ (L : ℤ)),
    mul_le_mul_of_nonneg_right (mul_le_mul_of_nonneg_right hz
      (by linarith : (0 : ℤ) ≤ (L : ℤ))) (by linarith : (0 : ℤ) ≤ (L : ℤ))]

/-! ## Counting helpers for the partition property -/

theorem count_filter_range (N : ℕ) (p : ℕ → Bool) (a : ℕ) :
    ((List.range N).filter p).count a = if a < N ∧ p a then 1 else 0 := by
  induction N with
  | zero => simp
  | succ n ihn =>
    rw [List.range_succ, List.filter_append, List.count_append, ihn]
    have hiff1 : (a < n + 1 ∧ p a) ↔ (a < n ∧ p a) ∨ (a = n ∧ p a) := by
      constructor
      · rintro ⟨h1, h2⟩
        rcases Nat.lt_succ_iff_lt_or_eq.mp h1 with h3 | h3
        · exact Or.inl ⟨h3, h2⟩
        · exact Or.inr ⟨h3, h2⟩
      · rintro (⟨h1, h2⟩ | ⟨h1, h2⟩)
        · exact ⟨by omega, h2⟩
        · exact ⟨by omega, h2⟩
    by_cases hp : p n
    · have hf : List.filter p [n] = [n] := by simp [hp]
      rw [hf]
      by_cases ha : a = n
      · subst ha
        have h1 : ¬(a < a ∧ p a) := fun hc => Nat.lt_irrefl a hc.1
        have h2 : a < a + 1 ∧ p a := ⟨Nat.lt_succ_self a, hp⟩
        rw [if_neg h1, if_pos h2]
        simp
      · have hc : [n].count a = 0 :=
          List.count_eq_zero_of_not_mem (by simp [ha])
        rw [hc]
        have hiff : (a < n + 1 ∧ p a) ↔ (a < n ∧ p a) := by
          rw [hiff1]
          constructor
          · rintro (h | ⟨h1, _⟩)
            · exact h
            · exact absurd h1 ha
          · exact Or.inl
        simp only [hiff, Nat.add_zero]
    · have hf : List.filter p [n] = [] := by simp [hp]
      rw [hf]
      have hiff : (a < n + 1 ∧ p a) ↔ (a < n ∧ p a) := by
        rw [hiff1]
        constructor
        · rintro (h | ⟨h1, h2⟩)
          · exact h
          · subst h1; exact absurd h2 (by simp [hp])
        · exact Or.inl
      simp only [hiff, List.count_nil, Nat.add_zero]

theorem sum_indicator_range (M : ℕ) (t : ℤ) :
    ((List.range M).map fun (c : ℕ) => if t = (c : ℤ) then (1 : ℕ) else 0).sum =
      if 0 ≤ t ∧ t < (M : ℤ) then 1 else 0 := by
  induction M with
  | zero =>
    simp only [List.range_zero, List.map_nil, List.sum_nil]
    have hng : ¬(0 ≤ t ∧ t < ((0 : ℕ) : ℤ)) := by
      push_cast
      omega
    rw [if_neg hng]
  | succ m ihm =>
    rw [List.range_succ, List.map_append, List.sum_append, ihm]
    simp only [List.map_cons, List.map_nil, List.sum_cons, List.sum_nil]
    push_cast
    split_ifs <;> omega

/-! ## Claim C5: `populate_cells` partitions the index set -/

/-- C5: for every particle array (positions arbitrary, thanks to the
clamping of bin indices to `[0, L-1]`) and every cell grid with binning
`L ≥ 1`, after `dvs_populate_cells` the linked lists rooted at the `L³`
cell heads (threaded through `Particle.next`, terminated by `-1`) form a
partition of `{0, …, N-1}`: the full walk of all lists is a permutation
of `[0, N)`, visiting each index exactly once. -/
theorem populate_cells_partition (ps : List Particle) (cl : Cells)
    (hL : 1 ≤ cl.binning) :
    List.Perm
      ((List.range (cl.binning ^ 3)).flatMap fun (c : ℕ) =>
        chainList (dvs_populate_cells ps cl).1 ps.length
          ((dvs_populate_cells ps cl).2.cells (c : ℤ)))
      (List.range ps.length) := by
  rw [List.perm_iff_count]
  intro a
  rw [List.flatMap_def, List.count_flatten, List.map_map]
  have hcount : ∀ c : ℕ,
      (List.count a ∘ fun (c : ℕ) =>
        chainList (dvs_populate_cells ps cl).1 ps.length
          ((dvs_populate_cells ps cl).2.cells (c : ℤ))) c =
      if a < ps.length ∧ cellNum cl.binning cl.dr (getP ps a).r = (c : ℤ)
      then (1 : ℕ) else 0 := by
    intro c
    show List.count a (chainList (dvs_populate_cells ps cl).1 ps.length
      ((dvs_populate_cells ps cl).2.cells (c : ℤ))) = _
    rw [populate_chain_eq, List.count_reverse, count_filter_range]
    simp only [beq_iff_eq]
  rw [List.map_congr_left fun c _ => hcount c]
  by_cases haN : a < ps.length
  · have hmap : (List.range (cl.binning ^ 3)).map (fun (c : ℕ) =>
        if a < ps.length ∧ cellNum cl.binning cl.dr (getP ps a).r = (c : ℤ)
        then (1 : ℕ) else 0) =
        (List.range (cl.binning ^ 3)).map (fun (c : ℕ) =>
        if cellNum cl.binning cl.dr (getP ps a).r = (c : ℤ)
        then (1 : ℕ) else 0) := by
      apply List.map_congr_left
      intro c _
      by_cases hcc : cellNum cl.binning cl.dr (getP ps a).r = (c : ℤ)
      · rw [if_pos ⟨haN, hcc⟩, if_pos hcc]
      · rw [if_neg fun hand => hcc hand.2, if_neg hcc]
    rw [hmap, sum_indicator_range]
    have hpos : 0 ≤ cellNum cl.binning cl.dr (getP ps a).r ∧
        cellNum cl.binning cl.dr (getP ps a).r < ((cl.binning ^ 3 : ℕ) : ℤ) := by
      constructor
      · exact cellNum_nonneg _ _ _
      · push_cast
        exact cellNum_lt _ _ _ hL
    rw [if_pos hpos]
    exact (List.count_eq_one_of_mem (List.nodup_range ps.length)
      (List.mem_range.mpr haN)).symm
  · have hmap : (List.range (cl.binning ^ 3)).map (fun (c : ℕ) =>
        if a < ps.length ∧ cellNum cl.binning cl.dr (getP ps a).r = (c : ℤ)
        then (1 : ℕ) else 0) =
        (List.range (cl.binning ^ 3)).map (fun (_ : ℕ) => (0 : ℕ)) := by
      apply List.map_congr_left
      intro c _
      rw [if_neg fun hand => haN hand.1]
    rw [hmap]
    have hz : ((List.range (cl.binning ^ 3)).map (fun (_ : ℕ) => (0 : ℕ))).sum = 0 := by
      simp
    rw [hz]
    exact (List.count_eq_zero_of_not_mem fun hmem =>
      haN (List.mem_range.mp hmem)).symm

/-- Witness for `populate_cells_partition`: one particle at the origin
in a `1 × 1 × 1` grid. -/
theorem populate_cells_partition_witness :
    1 ≤ (Cells_new 1).binning ∧
    List.Perm
      ((List.range ((Cells_new 1).binning ^ 3)).flatMap fun (c : ℕ) =>
        chainList (dvs_populate_cells [pdef] (Cells_new 1)).1 [pdef].length
          ((dvs_populate_cells [pdef] (Cells_new 1)).2.cells (c : ℤ)))
      (List.range [pdef].length) :=
  ⟨le_refl 1, populate_cells_partition [pdef] (Cells_new 1) (le_refl 1)⟩

/-! ## Claim C8: the brute-force pair enumeration -/

theorem mem_brutePairs (n first last i j : ℕ) :
    (i, j) ∈ brutePairs n first last ↔
      first ≤ i ∧ i < last ∧ i < j ∧ j < n := by
  unfold brutePairs
  simp only [List.mem_flatMap, List.mem_map, List.mem_range'_1, Prod.mk.injEq]
  constructor
  · rintro ⟨i2, ⟨h1, h2⟩, j2, ⟨h3, h4⟩, h5, h6⟩
    subst h5
    subst h6
    refine ⟨h1, by omega, by omega, by omega⟩
  · rintro ⟨h1, h2, h3, h4⟩
    exact ⟨i, ⟨h1, by omega⟩, j, ⟨by omega, by omega⟩, rfl, rfl⟩

theorem brutePairs_nodup (n first last : ℕ) :
    (brutePairs n first last).Nodup := by
  unfold brutePairs
  rw [List.nodup_flatMap]
  constructor
  · intro i _
    exact (List.nodup_range' _ _).map fun a b hab =>
      ((Prod.mk.injEq i a i b).mp hab).2
  · apply List.Pairwise.imp ?_ (List.nodup_range' _ _)
    intro a b hab pr hpa hpb
    simp only [List.mem_map] at hpa hpb
    obtain ⟨j1, _, he1⟩ := hpa
    obtain ⟨j2, _, he2⟩ := hpb
    apply hab
    rw [← he1] at he2
    exact (((Prod.mk.injEq b j2 a j1).mp he2).1).symm

/-- C8: for every `N`, particle array, and half-open range `[first, last)`,
`dvs_calc_brute_forces` invokes the pair kernel exactly once on every
ordered pair `(i, j)` with `first ≤ i < last` and `i < j < N` and on no
other pair (the pair list is duplicate-free with exactly that membership),
and consequently `ww_counter` increases by exactly the number of such
pairs. -/
theorem brute_forces_pair_coverage (N first last : ℕ) (ps : List Particle)
    (cutoff gamma : ℝ) (st : Stats) (hN : ps.length = N) :
    (brutePairs N first last).Nodup ∧
    (∀ i j : ℕ, (i, j) ∈ brutePairs N first last ↔
      first ≤ i ∧ i < last ∧ i < j ∧ j < N) ∧
    (dvs_calc_brute_forces N ps first last cutoff gamma st).2.ww_counter =
      st.ww_counter + (brutePairs N first last).length := by
  refine ⟨brutePairs_nodup N first last, fun i j => mem_brutePairs N first last i j, ?_⟩
  have hval : ∀ pr ∈ brutePairs N first last,
      pr.1 < ps.length ∧ pr.2 < ps.length ∧ pr.1 ≠ pr.2 := by
    intro pr hpr
    have := (mem_brutePairs N first last pr.1 pr.2).mp hpr
    rw [hN]
    exact ⟨by omega, by omega, by omega⟩
  exact (runPairs_spec cutoff gamma (brutePairs N first last) ps st hval).2.2.2.2.2.1

/-- Witness for `brute_forces_pair_coverage` with two default particles. -/
theorem brute_forces_pair_coverage_witness :
    ([pdef, pdef] : List Particle).length = 2 ∧
    ((brutePairs 2 0 2).Nodup ∧
     (∀ i j : ℕ, (i, j) ∈ brutePairs 2 0 2 ↔
       0 ≤ i ∧ i < 2 ∧ i < j ∧ j < 2) ∧
     (dvs_calc_brute_forces 2 [pdef, pdef] 0 2 1 0 ⟨0, 0, 0⟩).2.ww_counter =
       (0 : ℕ) + (brutePairs 2 0 2).length) :=
  ⟨rfl, brute_forces_pair_coverage 2 0 2 [pdef, pdef] 1 0 ⟨0, 0, 0⟩ rfl⟩

/-! ## Claim C9: `collect_forces` -/

theorem dvs_collect_forces_zero (accu part : List Particle) :
    dvs_collect_forces 0 accu part = accu := rfl

theorem dvs_collect_forces_succ (n : ℕ) (accu part : List Particle) :
    dvs_collect_forces (n + 1) accu part =
      (match (dvs_collect_forces n accu part)[n]?, part[n]? with
       | some ai, some pi =>
           (dvs_collect_forces n accu part).set n { ai with a := vec_add ai.a pi.a }
       | _, _ => dvs_collect_forces n accu part) := by
  unfold dvs_collect_forces
  rw [List.range_succ, List.foldl_append]
  rfl

theorem collect_forces_spec (n : ℕ) (accu part : List Particle)
    (h1 : n ≤ accu.length) (h2 : n ≤ part.length) :
    (dvs_collect_forces n accu part).length = accu.length ∧
    ∀ k, getP (dvs_collect_forces n accu part) k =
      if k < n then
        { getP accu k with a := vec_add (getP accu k).a (getP part k).a }
      else getP accu k := by
  induction n with
  | zero =>
    rw [dvs_collect_forces_zero]
    exact ⟨rfl, fun k => by rw [if_neg (by omega)]⟩
  | succ n ihn =>
    obtain ⟨hlen, hget⟩ := ihn (by omega) (by omega)
    have hn1 : n < (dvs_collect_forces n accu part).length := by omega
    have hn2 : n < part.length := by omega
    have hq1 : (dvs_collect_forces n accu part)[n]? =
        some (getP accu n) := by
      rw [List.getElem?_eq_getElem hn1, ← getP_eq_getElem _ _ hn1, hget n,
        if_neg (by omega)]
    have hq2 : part[n]? = some (getP part n) := by
      rw [List.getElem?_eq_getElem hn2, ← getP_eq_getElem _ _ hn2]
    rw [dvs_collect_forces_succ, hq1, hq2]
    refine ⟨by rw [List.length_set, hlen], ?_⟩
    intro k
    rw [getP_set]
    by_cases hk : k = n ∧ n < (dvs_collect_forces n accu part).length
    · rw [if_pos hk, hk.1, if_pos (by omega)]
    · have hkn : ¬k = n := fun he => hk ⟨he, hn1⟩
      rw [if_neg hk, hget k]
      by_cases hlt : k < n
      · rw [if_pos hlt, if_pos (by omega)]
      · rw [if_neg hlt, if_neg (by omega)]

theorem list_eq_of_getP (l1 l2 : List Particle) (hlen : l1.length = l2.length)
    (h : ∀ k, getP l1 k = getP l2 k) : l1 = l2 := by
  apply List.ext_getElem?
  intro n
  by_cases hn : n < l1.length
  · have hn2 : n < l2.length := by omega
    rw [List.getElem?_eq_getElem hn, List.getElem?_eq_getElem hn2]
    have := h n
    rw [getP_eq_getElem l1 n hn, getP_eq_getElem l2 n hn2] at this
    rw [this]
  · rw [List.getElem?_eq_none (by omega), List.getElem?_eq_none (by omega)]

/-- C9: `dvs_collect_forces n accu part` adds `part[i].a` to `accu[i].a`
componentwise for every `i < n`, leaves every other field of `accu`
(position, velocity, `next`) and every entry beyond `n` unchanged, and
reads nothing of `part` except its acceleration fields: replacing `part`
by any array with the same accelerations on `[0, n)` gives the same
result (in this functional model, `part` itself is of course never
modified). -/
theorem collect_forces_accumulates (n : ℕ) (accu part : List Particle)
    (h1 : n ≤ accu.length) (h2 : n ≤ part.length) :
    (∀ k, k < n →
      (getP (dvs_collect_forces n accu part) k).a =
        vec_add (getP accu k).a (getP part k).a ∧
      (getP (dvs_collect_forces n accu part) k).r = (getP accu k).r ∧
      (getP (dvs_collect_forces n accu part) k).v = (getP accu k).v ∧
      (getP (dvs_collect_forces n accu part) k).next = (getP accu k).next) ∧
    (∀ k, n ≤ k → getP (dvs_collect_forces n accu part) k = getP accu k) ∧
    (dvs_collect_forces n accu part).length = accu.length ∧
    (∀ part2 : List Particle, n ≤ part2.length →
      (∀ k, k < n → (getP part2 k).a = (getP part k).a) →
      dvs_collect_forces n accu part2 = dvs_collect_forces n accu part) := by
  obtain ⟨hlen, hget⟩ := collect_forces_spec n accu part h1 h2
  refine ⟨?_, ?_, hlen, ?_⟩
  · intro k hk
    rw [hget k, if_pos hk]
    exact ⟨rfl, rfl, rfl, rfl⟩
  · intro k hk
    rw [hget k, if_neg (by omega)]
  · intro part2 hp2 hsame
    obtain ⟨hlen2, hget2⟩ := collect_forces_spec n accu part2 h1 hp2
    apply list_eq_of_getP _ _ (by rw [hlen2, hlen])
    intro k
    rw [hget k, hget2 k]
    by_cases hk : k < n
    · rw [if_pos hk, if_pos hk, hsame k hk]
    · rw [if_neg hk, if_neg hk]

/-- Witness for `collect_forces_accumulates` with singleton arrays. -/
theorem collect_forces_accumulates_witness :
    1 ≤ ([pdef] : List Particle).length ∧ 1 ≤ ([pdef] : List Particle).length ∧
    ((∀ k, k < 1 →
      (getP (dvs_collect_forces 1 [pdef] [pdef]) k).a =
        vec_add (getP [pdef] k).a (getP [pdef] k).a ∧
      (getP (dvs_collect_forces 1 [pdef] [pdef]) k).r = (getP [pdef] k).r ∧
      (getP (dvs_collect_forces 1 [pdef] [pdef]) k).v = (getP [pdef] k).v ∧
      (getP (dvs_collect_forces 1 [pdef] [pdef]) k).next = (getP [pdef] k).next) ∧
    (∀ k, 1 ≤ k → getP (dvs_collect_forces 1 [pdef] [pdef]) k = getP [pdef] k) ∧
    (dvs_collect_forces 1 [pdef] [pdef]).length = ([pdef] : List Particle).length ∧
    (∀ part2 : List Particle, 1 ≤ part2.length →
      (∀ k, k < 1 → (getP part2 k).a = (getP [pdef] k).a) →
      dvs_collect_forces 1 [pdef] part2 = dvs_collect_forces 1 [pdef] [pdef])) :=
  ⟨le_refl 1, le_refl 1, collect_forces_accumulates 1 [pdef] [pdef] (le_refl 1) (le_refl 1)⟩

/-! ## Claim C10: `advance` with `dt = 0`

The real-number embedding cannot express IEEE special values, so the
`advance` body is re-translated from the same source lines over
`Option ℝ`, where `none` models a non-finite double (NaN or infinity):
division by zero and square roots of negative numbers produce `none`,
and `none` propagates through every arithmetic operation, exactly as
NaN does in IEEE 754.  On the concrete trace below every intermediate
value is exactly representable and every operation exact, so the model
agrees with IEEE double arithmetic there, and the one division that
occurs with a zero divisor is `0/0`, which IEEE defines as NaN. -/

noncomputable def dAdd : Option ℝ → Option ℝ → Option ℝ
  | some a, some b => some (a + b)
  | _, _ => none

noncomputable def dSub : Option ℝ → Option ℝ → Option ℝ
  | some a, some b => some (a - b)
  | _, _ => none

noncomputable def dMul : Option ℝ → Option ℝ → Option ℝ
  | some a, some b => some (a * b)
  | _, _ => none

noncomputable def dDiv : Option ℝ → Option ℝ → Option ℝ
  | some a, some b => if b = 0 then none else some (a / b)
  | _, _ => none

noncomputable def dNeg : Option ℝ → Option ℝ
  | some a => some (-a)
  | none => none

noncomputable def dSqrt : Option ℝ → Option ℝ
  | some a => if a < 0 then none else some (Real.sqrt a)
  | none => none

/-- 3-vector over the NaN-aware doubles. -/
structure DVec where
  x : Option ℝ
  y : Option ℝ
  z : Option ℝ

noncomputable def dvec_add (a b : DVec) : DVec :=
  ⟨dAdd a.x b.x, dAdd a.y b.y, dAdd a.z b.z⟩

noncomputable def dvec_sclr (s : Option ℝ) (a : DVec) : DVec :=
  ⟨dMul s a.x, dMul s a.y, dMul s a.z⟩

noncomputable def dvec_dot (a b : DVec) : Option ℝ :=
  dAdd (dAdd (dMul a.x b.x) (dMul a.y b.y)) (dMul a.z b.z)

/-- Particle over the NaN-aware doubles. -/
structure ParticleD where
  r : DVec
  v : DVec
  a : DVec
  next : ℤ

/-- The half-kicked velocity of `dvs_advance` over NaN-aware doubles. -/
noncomputable def advV1D (dt : Option ℝ) (p : ParticleD) : DVec :=
  dvec_add p.v (dvec_sclr (dMul (some 0.5) dt) p.a)

/-- The predicted position of `dvs_advance` over NaN-aware doubles. -/
noncomputable def advR1D (dt : Option ℝ) (p : ParticleD) : DVec :=
  dvec_add p.r (dvec_sclr dt (advV1D dt p))

/-- The RATTLE discriminant of `dvs_advance` over NaN-aware doubles. -/
noncomputable def advDiscD (dt : Option ℝ) (p : ParticleD) : Option ℝ :=
  dAdd (dSub (some 1) (dvec_dot (advR1D dt p) (advR1D dt p)))
    (dMul (dvec_dot p.r (advR1D dt p)) (dvec_dot p.r (advR1D dt p)))

/-- The Lagrange multiplier of `dvs_advance` over NaN-aware doubles. -/
noncomputable def advLambdaD (dt : Option ℝ) (p : ParticleD) : Option ℝ :=
  dAdd (dNeg (dvec_dot p.r (advR1D dt p))) (dSqrt (advDiscD dt p))

/-- The per-particle body of `dvs_advance` (lines 74–88 of `davis.c`)
over NaN-aware doubles. -/
noncomputable def advanceParticleD (dt : Option ℝ) (p : ParticleD) : ParticleD :=
  { r := dvec_add (advR1D dt p) (dvec_sclr (advLambdaD dt p) p.r)
    v := dvec_add (advV1D dt p) (dvec_sclr (dDiv (advLambdaD dt p) dt) p.r)
    a := ⟨some 0, some 0, some 0⟩
    next := p.next }

/-- The concrete input of claim C10: a particle at rest at `(1, 0, 0)`
on the sphere, with zero acceleration. -/
noncomputable def p0D : ParticleD :=
  { r := ⟨some 1, some 0, some 0⟩
    v := ⟨some 0, some 0, some 0⟩
    a := ⟨some 0, some 0, some 0⟩
    next := -1 }

/-- C10: `dvs_advance` needs `dt ≠ 0` to keep velocities finite.  At
`dt = 0` with the on-sphere particle `p0D` at rest, the computed Lagrange
multiplier is exactly `0`, the velocity update divides it by `dt`, i.e.
evaluates `0/0` (a NaN in IEEE 754, `none` in this model), and the
resulting velocity has every component non-finite even though the
position is unchanged. -/
theorem advance_dt_zero_velocity_nan :
    advLambdaD (some 0) p0D = some 0 ∧
    dDiv (advLambdaD (some 0) p0D) (some 0) = none ∧
    (advanceParticleD (some 0) p0D).r = p0D.r ∧
    (advanceParticleD (some 0) p0D).v = ⟨none, none, none⟩ := by
  have hv1 : advV1D (some 0) p0D = ⟨some 0, some 0, some 0⟩ := by
    unfold advV1D
    simp only [p0D, dvec_add, dvec_sclr, dMul, dAdd]
    norm_num
  have hr1 : advR1D (some 0) p0D = ⟨some 1, some 0, some 0⟩ := by
    unfold advR1D
    rw [hv1]
    simp only [p0D, dvec_add, dvec_sclr, dMul, dAdd]
    norm_num
  have hdot1 : dvec_dot (p0D.r) (advR1D (some 0) p0D) = some 1 := by
    unfold dvec_dot
    rw [hr1]
    simp only [p0D, dMul, dAdd]
    norm_num
  have hdot2 : dvec_dot (advR1D (some 0) p0D) (advR1D (some 0) p0D) = some 1 := by
    unfold dvec_dot
    rw [hr1]
    simp only [dMul, dAdd]
    norm_num
  have hdisc : advDiscD (some 0) p0D = some 1 := by
    unfold advDiscD
    rw [hdot1, hdot2]
    simp only [dSub, dAdd, dMul]
    norm_num
  have hlam : advLambdaD (some 0) p0D = some 0 := by
    unfold advLambdaD
    rw [hdot1, hdisc]
    simp only [dNeg, dSqrt]
    rw [if_neg (by norm_num)]
    simp only [dAdd, Real.sqrt_one]
    norm_num
  have hdiv : dDiv (advLambdaD (some 0) p0D) (some 0) = none := by
    rw [hlam]
    simp [dDiv]
  refine ⟨hlam, hdiv, ?_, ?_⟩
  · show dvec_add (advR1D (some 0) p0D)
      (dvec_sclr (advLambdaD (some 0) p0D) p0D.r) = p0D.r
    rw [hr1, hlam]
    simp only [p0D, dvec_add, dvec_sclr, dMul, dAdd]
    norm_num
  · show dvec_add (advV1D (some 0) p0D)
      (dvec_sclr (dDiv (advLambdaD (some 0) p0D) (some 0)) p0D.r) = ⟨none, none, none⟩
    rw [hv1, hdiv]
    simp only [p0D, dvec_add, dvec_sclr, dMul, dAdd]

/-! ## Unordered normal form of index pairs -/

/-- The unordered normal form of an index pair. -/
def sortPair (pr : ℕ × ℕ) : ℕ × ℕ := (min pr.1 pr.2, max pr.1 pr.2)

theorem sortPair_of_gt (a b : ℕ) (h : b < a) : sortPair (a, b) = (b, a) := by
  simp [sortPair, min_eq_right (le_of_lt h), max_eq_left (le_of_lt h)]

theorem sortPair_of_le (a b : ℕ) (h : a ≤ b) : sortPair (a, b) = (a, b) := by
  simp [sortPair, min_eq_left h, max_eq_right h]

theorem sortPair_cases (pr : ℕ × ℕ) : sortPair pr = pr ∨ sortPair pr = (pr.2, pr.1) := by
  by_cases h : pr.1 ≤ pr.2
  · left
    rw [show pr = (pr.1, pr.2) from rfl, sortPair_of_le pr.1 pr.2 h]
  · right
    rw [show pr = (pr.1, pr.2) from rfl, sortPair_of_gt pr.1 pr.2 (by omega)]

/-! ## `suffixPairs` and `crossPairs` -/

theorem mem_suffixPairs_comp (l : List ℕ) (a b : ℕ) :
    (a, b) ∈ suffixPairs l → a ∈ l ∧ b ∈ l := by
  induction l with
  | nil => intro h; cases h
  | cons i rest ihl =>
    intro h
    rw [suffixPairs, List.mem_append] at h
    rcases h with h | h
    · simp only [List.mem_map, Prod.mk.injEq] at h
      obtain ⟨j, hj, rfl, rfl⟩ := h
      exact ⟨List.mem_cons_self _ _, List.mem_cons_of_mem _ hj⟩
    · obtain ⟨h1, h2⟩ := ihl h
      exact ⟨List.mem_cons_of_mem _ h1, List.mem_cons_of_mem _ h2⟩

theorem mem_suffixPairs_sorted (l : List ℕ)
    (hs : List.Pairwise (fun a b => b < a) l) (a b : ℕ) :
    (a, b) ∈ suffixPairs l ↔ a ∈ l ∧ b ∈ l ∧ b < a := by
  induction l with
  | nil => simp [suffixPairs]
  | cons i rest ihl =>
    rw [List.pairwise_cons] at hs
    rw [suffixPairs, List.mem_append]
    constructor
    · intro h
      rcases h with h | h
      · simp only [List.mem_map, Prod.mk.injEq] at h
        obtain ⟨j, hj, rfl, rfl⟩ := h
        exact ⟨List.mem_cons_self _ _, List.mem_cons_of_mem _ hj, hs.1 j hj⟩
      · obtain ⟨h1, h2, h3⟩ := (ihl hs.2).mp h
        exact ⟨List.mem_cons_of_mem _ h1, List.mem_cons_of_mem _ h2, h3⟩
    · rintro ⟨h1, h2, h3⟩
      rcases List.mem_cons.mp h1 with ha | ha
      · subst ha
        left
        rcases List.mem_cons.mp h2 with hb | hb
        · subst hb
          exact absurd h3 (Nat.lt_irrefl b)
        · exact List.mem_map.mpr ⟨b, hb, rfl⟩
      · right
        rcases List.mem_cons.mp h2 with hb | hb
        · subst hb
          exact absurd (hs.1 a ha) (by omega)
        · exact (ihl hs.2).mpr ⟨ha, hb, h3⟩

theorem mem_crossPairs (l1 l2 : List ℕ) (a b : ℕ) :
    (a, b) ∈ crossPairs l1 l2 ↔ a ∈ l1 ∧ b ∈ l2 := by
  unfold crossPairs
  simp only [List.mem_flatMap, List.mem_map, Prod.mk.injEq]
  constructor
  · rintro ⟨i, hi, j, hj, he1, he2⟩
    subst he1
    subst he2
    exact ⟨hi, hj⟩
  · rintro ⟨h1, h2⟩
    exact ⟨a, h1, b, h2, rfl, rfl⟩

theorem suffixPairs_nodup (l : List ℕ) (h : l.Nodup) : (suffixPairs l).Nodup := by
  induction l with
  | nil => exact List.nodup_nil
  | cons i rest ihl =>
    rw [List.nodup_cons] at h
    rw [suffixPairs]
    apply List.Nodup.append
    · exact h.2.map fun a b hab => ((Prod.mk.injEq i a i b).mp hab).2
    · exact ihl h.2
    · intro pr hpr1 hpr2
      simp only [List.mem_map, Prod.mk.injEq] at hpr1
      obtain ⟨j, hj, he⟩ := hpr1
      have hfst : pr.1 = i := by rw [← he]
      have := mem_suffixPairs_comp rest pr.1 pr.2
        (by rw [show (pr.1, pr.2) = pr from rfl]; exact hpr2)
      exact h.1 (hfst ▸ this.1)

theorem crossPairs_nodup (l1 l2 : List ℕ) (h1 : l1.Nodup) (h2 : l2.Nodup) :
    (crossPairs l1 l2).Nodup := by
  unfold crossPairs
  rw [List.nodup_flatMap]
  constructor
  · intro i _
    exact h2.map fun a b hab => ((Prod.mk.injEq i a i b).mp hab).2
  · apply List.Pairwise.imp ?_ h1
    intro a b hab pr hpa hpb
    simp only [List.mem_map] at hpa hpb
    obtain ⟨j1, _, he1⟩ := hpa
    obtain ⟨j2, _, he2⟩ := hpb
    rw [← he1] at he2
    exact hab (((Prod.mk.injEq b j2 a j1).mp he2).1).symm

/-! ## Generic list helpers -/

theorem nodup_flatMap_key {α β κ : Type} (l : List α) (f : α → List β)
    (key : β → κ) (g : α → κ) (hl : l.Nodup)
    (h1 : ∀ a ∈ l, (f a).Nodup)
    (h2 : ∀ a ∈ l, ∀ b ∈ f a, key b = g a)
    (h3 : ∀ a ∈ l, ∀ a2 ∈ l, g a = g a2 → a = a2) :
    (l.flatMap f).Nodup := by
  rw [List.nodup_flatMap]
  refine ⟨h1, ?_⟩
  apply List.Pairwise.imp_of_mem ?_ hl
  intro a a2 ha ha2 hne b hb hb2
  exact hne (h3 a ha a2 ha2 (((h2 a ha b hb).symm).trans (h2 a2 ha2 b hb2)))

theorem sum_map_flatMap {α β M : Type} [AddCommMonoid M]
    (l : List α) (g : α → List β) (f : β → M) :
    ((l.flatMap g).map f).sum = (l.map fun a => ((g a).map f).sum).sum := by
  rw [List.map_flatMap, List.flatMap_def, List.sum_flatten, List.map_map]
  rfl

theorem sum_map_ite_zero {α M : Type} [AddCommMonoid M]
    (l : List α) (p : α → Bool) (f : α → M) :
    (l.map fun a => if p a then f a else 0).sum = ((l.filter p).map f).sum := by
  induction l with
  | nil => simp
  | cons a rest ihl =>
    rw [List.map_cons, List.sum_cons, ihl, List.filter_cons]
    by_cases hp : p a
    · rw [if_pos hp, if_pos hp, List.map_cons, List.sum_cons]
    · rw [if_neg hp, if_neg (by simpa using hp), zero_add]

theorem sum_map_ite_one (l : List (ℕ × ℕ)) (p : ℕ × ℕ → Bool) :
    (l.map fun a => if p a then (1 : ℕ) else 0).sum = (l.filter p).length := by
  rw [sum_map_ite_zero]
  induction (l.filter p) with
  | nil => rfl
  | cons a rest ihl =>
    simp only [List.map_cons, List.sum_cons, ihl, List.length_cons]
    omega

/-! ## The stencil range and cell-number encoding -/

theorem mem_neighborRange (L t u : ℕ) (ht : t < L) :
    u ∈ neighborRange L t ↔ t ≤ u + 1 ∧ u ≤ t + 1 ∧ u < L := by
  unfold neighborRange
  rw [List.mem_range'_1]
  omega

theorem neighborRange_nodup (L t : ℕ) : (neighborRange L t).Nodup :=
  List.nodup_range' _ _

theorem encZ_nonneg (L x y z : ℕ) : 0 ≤ encZ L x y z := by
  unfold encZ
  positivity

theorem encZ_lt (L x y z : ℕ) (hx : x < L) (hy : y < L) (hz : z < L) :
    encZ L x y z < (L : ℤ) ^ 3 := by
  unfold encZ
  have hx2 : (x : ℤ) < (L : ℤ) := by exact_mod_cast hx
  have hy2 : (y : ℤ) ≤ (L : ℤ) - 1 := by
    have : (y : ℤ) < (L : ℤ) := by exact_mod_cast hy
    omega
  have hz2 : (z : ℤ) ≤ (L : ℤ) - 1 := by
    have : (z : ℤ) < (L : ℤ) := by exact_mod_cast hz
    omega
  have hL0 : (0 : ℤ) ≤ (L : ℤ) := by positivity
  nlinarith [mul_le_mul_of_nonneg_right hy2 hL0,
    mul_le_mul_of_nonneg_right (mul_le_mul_of_nonneg_right hz2 hL0) hL0]

theorem nat_encode_inj (L a b a2 b2 : ℕ) (hL : 0 < L) (ha : a < L) (ha2 : a2 < L)
    (he : a + L * b = a2 + L * b2) : a = a2 ∧ b = b2 := by
  have h1 : (a + L * b) % L = a := by
    rw [Nat.add_mul_mod_self_left, Nat.mod_eq_of_lt ha]
  have h2 : (a2 + L * b2) % L = a2 := by
    rw [Nat.add_mul_mod_self_left, Nat.mod_eq_of_lt ha2]
  have ha3 : a = a2 := by rw [← h1, ← h2, he]
  subst ha3
  have hb : L * b = L * b2 := by omega
  exact ⟨rfl, Nat.eq_of_mul_eq_mul_left hL hb⟩

theorem encZ_eq_cast (L x y z : ℕ) :
    encZ L x y z = ((x + L * (y + L * z) : ℕ) : ℤ) := by
  unfold encZ
  push_cast
  ring

theorem encZ_inj (L x y z x2 y2 z2 : ℕ) (hL : 1 ≤ L)
    (hx : x < L) (hy : y < L) (hz : z < L)
    (hx2 : x2 < L) (hy2 : y2 < L) (hz2 : z2 < L)
    (he : encZ L x y z = encZ L x2 y2 z2) : x = x2 ∧ y = y2 ∧ z = z2 := by
  rw [encZ_eq_cast, encZ_eq_cast, Nat.cast_inj] at he
  obtain ⟨hxe, hrest⟩ := nat_encode_inj L x (y + L * z) x2 (y2 + L * z2)
    (by omega) hx hx2 he
  obtain ⟨hye, hze⟩ := nat_encode_inj L y z y2 z2 (by omega) hy hy2 hrest
  exact ⟨hxe, hye, hze⟩

theorem encZ_div_zz (L x y z : ℕ) (hL : 1 ≤ L) (hx : x < L) (hy : y < L) :
    encZ L x y z / ((L : ℤ) * (L : ℤ)) = (z : ℤ) := by
  have he : encZ L x y z = ((x : ℤ) + (L : ℤ) * (y : ℤ)) + ((L : ℤ) * (L : ℤ)) * (z : ℤ) := by
    unfold encZ
    ring
  rw [he, Int.add_mul_ediv_left _ _ (by positivity : ((L : ℤ) * (L : ℤ)) ≠ 0)]
  rw [Int.ediv_eq_zero_of_lt (by positivity) ?hb]
  · ring
  case hb =>
    have hx2 : (x : ℤ) < (L : ℤ) := by exact_mod_cast hx
    have hy2 : (y : ℤ) ≤ (L : ℤ) - 1 := by
      have : (y : ℤ) < (L : ℤ) := by exact_mod_cast hy
      omega
    have hL0 : (0 : ℤ) ≤ (L : ℤ) := by positivity
    nlinarith [mul_le_mul_of_nonneg_right hy2 hL0]

theorem encZ_div_mod (L x y z : ℕ) (hL : 1 ≤ L) (hx : x < L) (hy : y < L) :
    encZ L x y z / (L : ℤ) % (L : ℤ) = (y : ℤ) := by
  have he : encZ L x y z = (x : ℤ) + (L : ℤ) * ((y : ℤ) + (L : ℤ) * (z : ℤ)) := by
    unfold encZ
    ring
  have hLne : ((L : ℤ)) ≠ 0 := by
    have : (1 : ℤ) ≤ (L : ℤ) := by exact_mod_cast hL
    omega
  rw [he, Int.add_mul_ediv_left _ _ hLne,
    Int.ediv_eq_zero_of_lt (by positivity) (by exact_mod_cast hx), zero_add,
    Int.add_mul_emod_self_left, Int.emod_eq_of_lt (by positivity)
      (by exact_mod_cast hy)]

theorem encZ_mod (L x y z : ℕ) (hL : 1 ≤ L) (hx : x < L) :
    encZ L x y z % (L : ℤ) = (x : ℤ) := by
  have he : encZ L x y z = (x : ℤ) + (L : ℤ) * ((y : ℤ) + (L : ℤ) * (z : ℤ)) := by
    unfold encZ
    ring
  rw [he, Int.add_mul_emod_self_left,
    Int.emod_eq_of_lt (by positivity) (by exact_mod_cast hx)]

/-! ## Analysis of the cell sweep

The lemmas below are stated for an arbitrary particle array `qs`, head
table `cf` and cell-index function `cidx` linked by the hypothesis `HC`
that every chain is the reversed filter of `[0, N)` by cell — exactly
what `populate_chain_eq` provides after `dvs_populate_cells`. -/

theorem chainH_mem (qs : List Particle) (cf : ℤ → ℤ) (cidx : ℕ → ℤ)
    (HC : ∀ c : ℤ, chainList qs qs.length (cf c) =
      ((List.range qs.length).filter fun i => cidx i == c).reverse)
    (c : ℤ) (i : ℕ) :
    i ∈ chainList qs qs.length (cf c) ↔ i < qs.length ∧ cidx i = c := by
  rw [HC c, List.mem_reverse, List.mem_filter, List.mem_range]
  simp

theorem chainH_sorted (qs : List Particle) (cf : ℤ → ℤ) (cidx : ℕ → ℤ)
    (HC : ∀ c : ℤ, chainList qs qs.length (cf c) =
      ((List.range qs.length).filter fun i => cidx i == c).reverse)
    (c : ℤ) :
    List.Pairwise (fun a b => b < a) (chainList qs qs.length (cf c)) := by
  rw [HC c, List.pairwise_reverse]
  exact (List.pairwise_lt_range qs.length).filter _

theorem chainH_nodup (qs : List Particle) (cf : ℤ → ℤ) (cidx : ℕ → ℤ)
    (HC : ∀ c : ℤ, chainList qs qs.length (cf c) =
      ((List.range qs.length).filter fun i => cidx i == c).reverse)
    (c : ℤ) :
    (chainList qs qs.length (cf c)).Nodup := by
  rw [HC c]
  exact List.nodup_reverse.mpr ((List.nodup_range qs.length).filter _)

theorem chainH_head_ne (qs : List Particle) (cf : ℤ → ℤ) (c : ℤ) (i : ℕ)
    (h : i ∈ chainList qs qs.length (cf c)) : cf c ≠ -1 := by
  intro he
  have hnn : (0 : ℤ) ≤ cf c :=
    chainList_head_nonneg qs qs.length (cf c)
      (fun hnil => by rw [hnil] at h; cases h)
  omega

/-- All facts about a pair produced for the cell combination `(c, c2)`. -/
theorem otherBlock_cells (qs : List Particle) (cf : ℤ → ℤ) (cidx : ℕ → ℤ)
    (HC : ∀ c : ℤ, chainList qs qs.length (cf c) =
      ((List.range qs.length).filter fun i => cidx i == c).reverse)
    (c c2 : ℤ) (pr : ℕ × ℕ) (hpr : pr ∈ otherBlock qs cf c c2) :
    c ≤ c2 ∧ pr.1 < qs.length ∧ pr.2 < qs.length ∧
      cidx pr.1 = c ∧ cidx pr.2 = c2 ∧ pr.1 ≠ pr.2 := by
  obtain ⟨a, b⟩ := pr
  unfold otherBlock at hpr
  split_ifs at hpr with h1 h2
  · cases hpr
  · obtain ⟨ha, hb, hba⟩ :=
      (mem_suffixPairs_sorted _ (chainH_sorted qs cf cidx HC c) a b).mp hpr
    obtain ⟨ha1, ha2⟩ := (chainH_mem qs cf cidx HC c a).mp ha
    obtain ⟨hb1, hb2⟩ := (chainH_mem qs cf cidx HC c b).mp hb
    exact ⟨le_of_eq h2, ha1, hb1, ha2, h2 ▸ hb2, by omega⟩
  · obtain ⟨ha, hb⟩ := (mem_crossPairs _ _ a b).mp hpr
    obtain ⟨ha1, ha2⟩ := (chainH_mem qs cf cidx HC c a).mp ha
    obtain ⟨hb1, hb2⟩ := (chainH_mem qs cf cidx HC c2 b).mp hb
    refine ⟨by omega, ha1, hb1, ha2, hb2, ?_⟩
    intro he
    have he2 : a = b := he
    apply h2
    rw [← ha2, he2]
    exact hb2

theorem mem_otherBlock_same (qs : List Particle) (cf : ℤ → ℤ) (cidx : ℕ → ℤ)
    (HC : ∀ c : ℤ, chainList qs qs.length (cf c) =
      ((List.range qs.length).filter fun i => cidx i == c).reverse)
    (c : ℤ) (a b : ℕ) :
    (a, b) ∈ otherBlock qs cf c c ↔
      (a < qs.length ∧ cidx a = c) ∧ (b < qs.length ∧ cidx b = c) ∧ b < a := by
  unfold otherBlock
  rw [if_neg (lt_irrefl c), if_pos rfl]
  rw [mem_suffixPairs_sorted _ (chainH_sorted qs cf cidx HC c),
    chainH_mem qs cf cidx HC, chainH_mem qs cf cidx HC]

theorem mem_otherBlock_lt (qs : List Particle) (cf : ℤ → ℤ) (cidx : ℕ → ℤ)
    (HC : ∀ c : ℤ, chainList qs qs.length (cf c) =
      ((List.range qs.length).filter fun i => cidx i == c).reverse)
    (c c2 : ℤ) (hlt : c < c2) (a b : ℕ) :
    (a, b) ∈ otherBlock qs cf c c2 ↔
      (a < qs.length ∧ cidx a = c) ∧ (b < qs.length ∧ cidx b = c2) := by
  unfold otherBlock
  rw [if_neg (by omega), if_neg (by omega)]
  rw [mem_crossPairs, chainH_mem qs cf cidx HC, chainH_mem qs cf cidx HC]

/-! ## Keys for duplicate-freedom -/

theorem sortPair_or_swap (pr pr2 : ℕ × ℕ) (h : sortPair pr = sortPair pr2) :
    pr = pr2 ∨ pr = (pr2.2, pr2.1) := by
  obtain ⟨a, b⟩ := pr
  obtain ⟨c, d⟩ := pr2
  simp only [sortPair, Prod.mk.injEq] at h ⊢
  omega

/-- Minimum of the two cells of a pair. -/
noncomputable def keyMin (cidx : ℕ → ℤ) (pr : ℕ × ℕ) : ℤ :=
  min (cidx pr.1) (cidx pr.2)

/-- Maximum of the two cells of a pair. -/
noncomputable def keyMax (cidx : ℕ → ℤ) (pr : ℕ × ℕ) : ℤ :=
  max (cidx pr.1) (cidx pr.2)

theorem keyMin_sortPair (cidx : ℕ → ℤ) (pr : ℕ × ℕ) :
    keyMin cidx (sortPair pr) = keyMin cidx pr := by
  rcases sortPair_cases pr with h | h <;> rw [h]
  unfold keyMin
  exact min_comm _ _

theorem keyMax_sortPair (cidx : ℕ → ℤ) (pr : ℕ × ℕ) :
    keyMax cidx (sortPair pr) = keyMax cidx pr := by
  rcases sortPair_cases pr with h | h <;> rw [h]
  unfold keyMax
  exact max_comm _ _

theorem otherBlock_keys (qs : List Particle) (cf : ℤ → ℤ) (cidx : ℕ → ℤ)
    (HC : ∀ c : ℤ, chainList qs qs.length (cf c) =
      ((List.range qs.length).filter fun i => cidx i == c).reverse)
    (c c2 : ℤ) (pr : ℕ × ℕ) (hpr : pr ∈ otherBlock qs cf c c2) :
    keyMin cidx pr = c ∧ keyMax cidx pr = c2 := by
  obtain ⟨hle, _, _, h1, h2, _⟩ := otherBlock_cells qs cf cidx HC c c2 pr hpr
  unfold keyMin keyMax
  rw [h1, h2]
  exact ⟨min_eq_left hle, max_eq_right hle⟩

theorem otherBlock_map_sortPair_nodup (qs : List Particle) (cf : ℤ → ℤ)
    (cidx : ℕ → ℤ)
    (HC : ∀ c : ℤ, chainList qs qs.length (cf c) =
      ((List.range qs.length).filter fun i => cidx i == c).reverse)
    (c c2 : ℤ) :
    ((otherBlock qs cf c c2).map sortPair).Nodup := by
  unfold otherBlock
  split_ifs with h1 h2
  · simp
  · apply List.Nodup.map_on ?_ (suffixPairs_nodup _ (chainH_nodup qs cf cidx HC c))
    intro pr hpr pr2 hpr2 he
    obtain ⟨a, b⟩ := pr
    obtain ⟨a2, b2⟩ := pr2
    have f1 := (mem_suffixPairs_sorted _ (chainH_sorted qs cf cidx HC c) a b).mp hpr
    have f2 := (mem_suffixPairs_sorted _ (chainH_sorted qs cf cidx HC c) a2 b2).mp hpr2
    rcases sortPair_or_swap _ _ he with h | h
    · exact h
    · obtain ⟨he1, he2⟩ := (Prod.mk.injEq ..).mp h
      have hba : b < a := f1.2.2
      have hba2 : b2 < a2 := f2.2.2
      omega
  · apply List.Nodup.map_on ?_
      (crossPairs_nodup _ _ (chainH_nodup qs cf cidx HC c) (chainH_nodup qs cf cidx HC c2))
    intro pr hpr pr2 hpr2 he
    obtain ⟨a, b⟩ := pr
    obtain ⟨a2, b2⟩ := pr2
    obtain ⟨ma, mb⟩ := (mem_crossPairs _ _ a b).mp hpr
    obtain ⟨ma2, mb2⟩ := (mem_crossPairs _ _ a2 b2).mp hpr2
    rcases sortPair_or_swap _ _ he with h | h
    · exact h
    · exfalso
      obtain ⟨he1, he2⟩ := (Prod.mk.injEq ..).mp h
      subst he1
      have hc1 : cidx a = c := ((chainH_mem qs cf cidx HC c a).mp ma).2
      have hc2 : cidx a = c2 := ((chainH_mem qs cf cidx HC c2 a).mp mb2).2
      exact h2 (hc1.symm.trans hc2)

theorem mem_thisBlock_iff (L : ℕ) (qs : List Particle) (cf : ℤ → ℤ)
    (c0 c1 : ℤ) (x y z : ℕ) (pr : ℕ × ℕ) :
    pr ∈ thisBlock L qs cf c0 c1 x y z ↔
      (cf (encZ L x y z) ≠ -1 ∧ ¬(encZ L x y z < c0 ∨ c1 ≤ encZ L x y z) ∧
        ∃ nnz ∈ neighborRange L z, ∃ nny ∈ neighborRange L y,
          ∃ nnx ∈ neighborRange L x,
            pr ∈ otherBlock qs cf (encZ L x y z) (encZ L nnx nny nnz)) := by
  unfold thisBlock
  split_ifs with h1 h2
  · simp [h1]
  · simp [h2]
  · simp only [List.mem_flatMap]
    constructor
    · rintro ⟨nnz, hnz, nny, hny, nnx, hnx, hm⟩
      exact ⟨h1, h2, nnz, hnz, nny, hny, nnx, hnx, hm⟩
    · rintro ⟨_, _, nnz, hnz, nny, hny, nnx, hnx, hm⟩
      exact ⟨nnz, hnz, nny, hny, nnx, hnx, hm⟩

theorem thisBlock_facts (L : ℕ) (qs : List Particle) (cf : ℤ → ℤ) (cidx : ℕ → ℤ)
    (HC : ∀ c : ℤ, chainList qs qs.length (cf c) =
      ((List.range qs.length).filter fun i => cidx i == c).reverse)
    (c0 c1 : ℤ) (x y z : ℕ) (pr : ℕ × ℕ)
    (hpr : pr ∈ thisBlock L qs cf c0 c1 x y z) :
    keyMin cidx pr = encZ L x y z ∧ pr.1 < qs.length ∧ pr.2 < qs.length ∧
      pr.1 ≠ pr.2 := by
  obtain ⟨_, _, nnz, hnz, nny, hny, nnx, hnx, hm⟩ :=
    (mem_thisBlock_iff L qs cf c0 c1 x y z pr).mp hpr
  obtain ⟨hk1, _⟩ := otherBlock_keys qs cf cidx HC _ _ pr hm
  obtain ⟨_, hl1, hl2, _, _, hne⟩ := otherBlock_cells qs cf cidx HC _ _ pr hm
  exact ⟨hk1, hl1, hl2, hne⟩

/-- Validity of every pair the sweep produces (any cell range). -/
theorem sweepPairs_valid (L : ℕ) (qs : List Particle) (cf : ℤ → ℤ) (cidx : ℕ → ℤ)
    (HC : ∀ c : ℤ, chainList qs qs.length (cf c) =
      ((List.range qs.length).filter fun i => cidx i == c).reverse)
    (c0 c1 : ℤ) :
    ∀ pr ∈ sweepPairs L qs cf c0 c1,
      pr.1 < qs.length ∧ pr.2 < qs.length ∧ pr.1 ≠ pr.2 := by
  intro pr hpr
  unfold sweepPairs at hpr
  simp only [List.mem_flatMap, List.mem_range] at hpr
  obtain ⟨z, hz, y, hy, x, hx, hm⟩ := hpr
  obtain ⟨_, h1, h2, h3⟩ := thisBlock_facts L qs cf cidx HC c0 c1 x y z pr hm
  exact ⟨h1, h2, h3⟩

theorem stencil_nodup_x (qs : List Particle) (cf : ℤ → ℤ) (cidx : ℕ → ℤ)
    (HC : ∀ c : ℤ, chainList qs qs.length (cf c) =
      ((List.range qs.length).filter fun i => cidx i == c).reverse)
    (L : ℕ) (hL : 1 ≤ L) (c : ℤ) (x nny nnz : ℕ) (hx : x < L) :
    (((neighborRange L x).flatMap fun nnx =>
        otherBlock qs cf c (encZ L nnx nny nnz)).map sortPair).Nodup := by
  rw [List.map_flatMap]
  refine nodup_flatMap_key _ _ (fun uv => keyMax cidx uv % (L : ℤ))
    (fun nnx => (nnx : ℤ)) (neighborRange_nodup L x) ?_ ?_ ?_
  · intro nnx _
    exact otherBlock_map_sortPair_nodup qs cf cidx HC _ _
  · intro nnx hnnx b hb
    dsimp only
    obtain ⟨pr, hpr, rfl⟩ := List.mem_map.mp hb
    rw [keyMax_sortPair]
    rw [(otherBlock_keys qs cf cidx HC _ _ pr hpr).2]
    exact encZ_mod L nnx nny nnz hL ((mem_neighborRange L x nnx hx).mp hnnx).2.2
  · intro a _ a2 _ he
    have he2 : (a : ℤ) = (a2 : ℤ) := he
    exact_mod_cast he2

theorem stencil_nodup_y (qs : List Particle) (cf : ℤ → ℤ) (cidx : ℕ → ℤ)
    (HC : ∀ c : ℤ, chainList qs qs.length (cf c) =
      ((List.range qs.length).filter fun i => cidx i == c).reverse)
    (L : ℕ) (hL : 1 ≤ L) (c : ℤ) (x y nnz : ℕ) (hx : x < L) (hy : y < L) :
    (((neighborRange L y).flatMap fun nny =>
        (neighborRange L x).flatMap fun nnx =>
          otherBlock qs cf c (encZ L nnx nny nnz)).map sortPair).Nodup := by
  rw [List.map_flatMap]
  refine nodup_flatMap_key _ _ (fun uv => keyMax cidx uv / (L : ℤ) % (L : ℤ))
    (fun nny => (nny : ℤ)) (neighborRange_nodup L y) ?_ ?_ ?_
  · intro nny _
    exact stencil_nodup_x qs cf cidx HC L hL c x nny nnz hx
  · intro nny hnny b hb
    dsimp only
    rw [List.map_flatMap, List.mem_flatMap] at hb
    obtain ⟨nnx, hnnx, hb2⟩ := hb
    obtain ⟨pr, hpr, rfl⟩ := List.mem_map.mp hb2
    rw [keyMax_sortPair]
    rw [(otherBlock_keys qs cf cidx HC _ _ pr hpr).2]
    exact encZ_div_mod L nnx nny nnz hL
      ((mem_neighborRange L x nnx hx).mp hnnx).2.2
      ((mem_neighborRange L y nny hy).mp hnny).2.2
  · intro a _ a2 _ he
    have he2 : (a : ℤ) = (a2 : ℤ) := he
    exact_mod_cast he2

theorem stencil_nodup_z (qs : List Particle) (cf : ℤ → ℤ) (cidx : ℕ → ℤ)
    (HC : ∀ c : ℤ, chainList qs qs.length (cf c) =
      ((List.range qs.length).filter fun i => cidx i == c).reverse)
    (L : ℕ) (hL : 1 ≤ L) (c : ℤ) (x y z : ℕ) (hx : x < L) (hy : y < L) (hz : z < L) :
    (((neighborRange L z).flatMap fun nnz =>
        (neighborRange L y).flatMap fun nny =>
          (neighborRange L x).flatMap fun nnx =>
            otherBlock qs cf c (encZ L nnx nny nnz)).map sortPair).Nodup := by
  rw [List.map_flatMap]
  refine nodup_flatMap_key _ _ (fun uv => keyMax cidx uv / ((L : ℤ) * (L : ℤ)))
    (fun nnz => (nnz : ℤ)) (neighborRange_nodup L z) ?_ ?_ ?_
  · intro nnz _
    exact stencil_nodup_y qs cf cidx HC L hL c x y nnz hx hy
  · intro nnz hnnz b hb
    dsimp only
    rw [List.map_flatMap, List.mem_flatMap] at hb
    obtain ⟨nny, hnny, hb2⟩ := hb
    rw [List.map_flatMap, List.mem_flatMap] at hb2
    obtain ⟨nnx, hnnx, hb3⟩ := hb2
    obtain ⟨pr, hpr, rfl⟩ := List.mem_map.mp hb3
    rw [keyMax_sortPair]
    rw [(otherBlock_keys qs cf cidx HC _ _ pr hpr).2]
    exact encZ_div_zz L nnx nny nnz hL
      ((mem_neighborRange L x nnx hx).mp hnnx).2.2
      ((mem_neighborRange L y nny hy).mp hnny).2.2
  · intro a _ a2 _ he
    have he2 : (a : ℤ) = (a2 : ℤ) := he
    exact_mod_cast he2

theorem thisBlock_map_sortPair_nodup (qs : List Particle) (cf : ℤ → ℤ)
    (cidx : ℕ → ℤ)
    (HC : ∀ c : ℤ, chainList qs qs.length (cf c) =
      ((List.range qs.length).filter fun i => cidx i == c).reverse)
    (L : ℕ) (hL : 1 ≤ L) (c0 c1 : ℤ) (x y z : ℕ)
    (hx : x < L) (hy : y < L) (hz : z < L) :
    ((thisBlock L qs cf c0 c1 x y z).map sortPair).Nodup := by
  unfold thisBlock
  split_ifs with h1 h2
  · simp
  · simp
  · exact stencil_nodup_z qs cf cidx HC L hL _ x y z hx hy hz

theorem sweep_nodup_x (qs : List Particle) (cf : ℤ → ℤ) (cidx : ℕ → ℤ)
    (HC : ∀ c : ℤ, chainList qs qs.length (cf c) =
      ((List.range qs.length).filter fun i => cidx i == c).reverse)
    (L : ℕ) (hL : 1 ≤ L) (c0 c1 : ℤ) (y z : ℕ) (hy : y < L) (hz : z < L) :
    (((List.range L).flatMap fun x =>
        thisBlock L qs cf c0 c1 x y z).map sortPair).Nodup := by
  rw [List.map_flatMap]
  refine nodup_flatMap_key _ _ (fun uv => keyMin cidx uv % (L : ℤ))
    (fun x => (x : ℤ)) (List.nodup_range L) ?_ ?_ ?_
  · intro x hx
    exact thisBlock_map_sortPair_nodup qs cf cidx HC L hL c0 c1 x y z
      (List.mem_range.mp hx) hy hz
  · intro x hx b hb
    dsimp only
    obtain ⟨pr, hpr, rfl⟩ := List.mem_map.mp hb
    rw [keyMin_sortPair]
    rw [(thisBlock_facts L qs cf cidx HC c0 c1 x y z pr hpr).1]
    exact encZ_mod L x y z hL (List.mem_range.mp hx)
  · intro a _ a2 _ he
    have he2 : (a : ℤ) = (a2 : ℤ) := he
    exact_mod_cast he2

theorem sweep_nodup_y (qs : List Particle) (cf : ℤ → ℤ) (cidx : ℕ → ℤ)
    (HC : ∀ c : ℤ, chainList qs qs.length (cf c) =
      ((List.range qs.length).filter fun i => cidx i == c).reverse)
    (L : ℕ) (hL : 1 ≤ L) (c0 c1 : ℤ) (z : ℕ) (hz : z < L) :
    (((List.range L).flatMap fun y =>
        (List.range L).flatMap fun x =>
          thisBlock L qs cf c0 c1 x y z).map sortPair).Nodup := by
  rw [List.map_flatMap]
  refine nodup_flatMap_key _ _ (fun uv => keyMin cidx uv / (L : ℤ) % (L : ℤ))
    (fun y => (y : ℤ)) (List.nodup_range L) ?_ ?_ ?_
  · intro y hy
    exact sweep_nodup_x qs cf cidx HC L hL c0 c1 y z (List.mem_range.mp hy) hz
  · intro y hy b hb
    dsimp only
    rw [List.map_flatMap, List.mem_flatMap] at hb
    obtain ⟨x, hx, hb2⟩ := hb
    obtain ⟨pr, hpr, rfl⟩ := List.mem_map.mp hb2
    rw [keyMin_sortPair]
    rw [(thisBlock_facts L qs cf cidx HC c0 c1 x y z pr hpr).1]
    exact encZ_div_mod L x y z hL (List.mem_range.mp hx) (List.mem_range.mp hy)
  · intro a _ a2 _ he
    have he2 : (a : ℤ) = (a2 : ℤ) := he
    exact_mod_cast he2

theorem sweepPairs_map_sortPair_nodup (qs : List Particle) (cf : ℤ → ℤ)
    (cidx : ℕ → ℤ)
    (HC : ∀ c : ℤ, chainList qs qs.length (cf c) =
      ((List.range qs.length).filter fun i => cidx i == c).reverse)
    (L : ℕ) (hL : 1 ≤ L) (c0 c1 : ℤ) :
    ((sweepPairs L qs cf c0 c1).map sortPair).Nodup := by
  unfold sweepPairs
  rw [List.map_flatMap]
  refine nodup_flatMap_key _ _ (fun uv => keyMin cidx uv / ((L : ℤ) * (L : ℤ)))
    (fun z => (z : ℤ)) (List.nodup_range L) ?_ ?_ ?_
  · intro z hz
    exact sweep_nodup_y qs cf cidx HC L hL c0 c1 z (List.mem_range.mp hz)
  · intro z hz b hb
    dsimp only
    rw [List.map_flatMap, List.mem_flatMap] at hb
    obtain ⟨y, hy, hb2⟩ := hb
    rw [List.map_flatMap, List.mem_flatMap] at hb2
    obtain ⟨x, hx, hb3⟩ := hb2
    obtain ⟨pr, hpr, rfl⟩ := List.mem_map.mp hb3
    rw [keyMin_sortPair]
    rw [(thisBlock_facts L qs cf cidx HC c0 c1 x y z pr hpr).1]
    exact encZ_div_zz L x y z hL (List.mem_range.mp hx) (List.mem_range.mp hy)
  · intro a _ a2 _ he
    have he2 : (a : ℤ) = (a2 : ℤ) := he
    exact_mod_cast he2

/-- Membership in the unordered image of the full-range sweep: exactly the
pairs `u < v` of distinct particles whose cells are within one step in each
coordinate. -/
theorem mem_sweep_sorted_iff (qs : List Particle) (cf : ℤ → ℤ) (cidx : ℕ → ℤ)
    (HC : ∀ c : ℤ, chainList qs qs.length (cf c) =
      ((List.range qs.length).filter fun i => cidx i == c).reverse)
    (L : ℕ) (hL : 1 ≤ L)
    (HD : ∀ i, i < qs.length → ∃ ux uy uz : ℕ,
      ux < L ∧ uy < L ∧ uz < L ∧ cidx i = encZ L ux uy uz)
    (u v : ℕ) :
    (u, v) ∈ (sweepPairs L qs cf 0 ((L : ℤ) ^ 3)).map sortPair ↔
      (u < v ∧ u < qs.length ∧ v < qs.length ∧
        ∃ ux uy uz vx vy vz : ℕ,
          ux < L ∧ uy < L ∧ uz < L ∧ vx < L ∧ vy < L ∧ vz < L ∧
          cidx u = encZ L ux uy uz ∧ cidx v = encZ L vx vy vz ∧
          ux ≤ vx + 1 ∧ vx ≤ ux + 1 ∧ uy ≤ vy + 1 ∧ vy ≤ uy + 1 ∧
          uz ≤ vz + 1 ∧ vz ≤ uz + 1) := by
  constructor
  · intro h
    obtain ⟨pr, hpr, hsort⟩ := List.mem_map.mp h
    unfold sweepPairs at hpr
    simp only [List.mem_flatMap, List.mem_range] at hpr
    obtain ⟨z, hz, y, hy, x, hx, hm⟩ := hpr
    rw [mem_thisBlock_iff] at hm
    obtain ⟨hne1, hrange, nnz, hnz, nny, hny, nnx, hnx, hob⟩ := hm
    obtain ⟨a, b⟩ := pr
    obtain ⟨hle, haN, hbN, hca, hcb, hne⟩ :=
      otherBlock_cells qs cf cidx HC _ _ (a, b) hob
    obtain ⟨hnz1, hnz2, hnzL⟩ := (mem_neighborRange L z nnz hz).mp hnz
    obtain ⟨hny1, hny2, hnyL⟩ := (mem_neighborRange L y nny hy).mp hny
    obtain ⟨hnx1, hnx2, hnxL⟩ := (mem_neighborRange L x nnx hx).mp hnx
    simp only at haN hbN hca hcb hne
    rcases Nat.lt_or_ge a b with hab | hab
    · rw [sortPair_of_le a b (le_of_lt hab)] at hsort
      obtain ⟨rfl, rfl⟩ := (Prod.mk.injEq ..).mp hsort
      refine ⟨hab, haN, hbN, x, y, z, nnx, nny, nnz,
        hx, hy, hz, hnxL, hnyL, hnzL, hca, hcb, ?_, ?_, ?_, ?_, ?_, ?_⟩ <;> omega
    · have hba : b < a := by omega
      rw [sortPair_of_gt a b hba] at hsort
      obtain ⟨rfl, rfl⟩ := (Prod.mk.injEq ..).mp hsort
      refine ⟨hba, hbN, haN, nnx, nny, nnz, x, y, z,
        hnxL, hnyL, hnzL, hx, hy, hz, hcb, hca, ?_, ?_, ?_, ?_, ?_, ?_⟩ <;> omega
  · rintro ⟨huv, huN, hvN, ux, uy, uz, vx, vy, vz, huxL, huyL, huzL,
      hvxL, hvyL, hvzL, hcu, hcv, d1, d2, d3, d4, d5, d6⟩
    have hmemu : u ∈ chainList qs qs.length (cf (cidx u)) :=
      (chainH_mem qs cf cidx HC _ u).mpr ⟨huN, rfl⟩
    have hmemv : v ∈ chainList qs qs.length (cf (cidx v)) :=
      (chainH_mem qs cf cidx HC _ v).mpr ⟨hvN, rfl⟩
    rcases lt_trichotomy (cidx u) (cidx v) with hlt | heq | hgt
    · -- primary cell is that of u, the pair is (u, v)
      refine List.mem_map.mpr ⟨(u, v), ?_, sortPair_of_le u v (le_of_lt huv)⟩
      unfold sweepPairs
      simp only [List.mem_flatMap, List.mem_range]
      refine ⟨uz, huzL, uy, huyL, ux, huxL, ?_⟩
      rw [mem_thisBlock_iff]
      refine ⟨?_, ?_, vz, ?_, vy, ?_, vx, ?_, ?_⟩
      · rw [← hcu]
        exact chainH_head_ne qs cf _ u hmemu
      · rw [← hcu]
        have := encZ_nonneg L ux uy uz
        have := encZ_lt L ux uy uz huxL huyL huzL
        rw [hcu]
        omega
      · exact (mem_neighborRange L uz vz huzL).mpr ⟨by omega, by omega, hvzL⟩
      · exact (mem_neighborRange L uy vy huyL).mpr ⟨by omega, by omega, hvyL⟩
      · exact (mem_neighborRange L ux vx huxL).mpr ⟨by omega, by omega, hvxL⟩
      · rw [← hcu, ← hcv]
        rw [mem_otherBlock_lt qs cf cidx HC _ _ hlt]
        exact ⟨⟨huN, rfl⟩, ⟨hvN, rfl⟩⟩
    · -- same cell: the pair appears as (v, u) in the suffix pairs
      have hcoords : ux = vx ∧ uy = vy ∧ uz = vz := by
        have he : encZ L ux uy uz = encZ L vx vy vz := by
          rw [← hcu, ← hcv, heq]
        exact encZ_inj L ux uy uz vx vy vz hL huxL huyL huzL hvxL hvyL hvzL he
      obtain ⟨rfl, rfl, rfl⟩ := hcoords
      refine List.mem_map.mpr ⟨(v, u), ?_, sortPair_of_gt v u huv⟩
      unfold sweepPairs
      simp only [List.mem_flatMap, List.mem_range]
      refine ⟨uz, huzL, uy, huyL, ux, huxL, ?_⟩
      rw [mem_thisBlock_iff]
      refine ⟨?_, ?_, uz, ?_, uy, ?_, ux, ?_, ?_⟩
      · rw [← hcu]
        exact chainH_head_ne qs cf _ u hmemu
      · have := encZ_nonneg L ux uy uz
        have := encZ_lt L ux uy uz huxL huyL huzL
        omega
      · exact (mem_neighborRange L uz uz huzL).mpr ⟨by omega, by omega, huzL⟩
      · exact (mem_neighborRange L uy uy huyL).mpr ⟨by omega, by omega, huyL⟩
      · exact (mem_neighborRange L ux ux huxL).mpr ⟨by omega, by omega, huxL⟩
      · rw [← hcu]
        rw [mem_otherBlock_same qs cf cidx HC]
        exact ⟨⟨hvN, heq.symm⟩, ⟨huN, rfl⟩, huv⟩
    · -- primary cell is that of v, the pair is (v, u)
      refine List.mem_map.mpr ⟨(v, u), ?_, sortPair_of_gt v u huv⟩
      unfold sweepPairs
      simp only [List.mem_flatMap, List.mem_range]
      refine ⟨vz, hvzL, vy, hvyL, vx, hvxL, ?_⟩
      rw [mem_thisBlock_iff]
      refine ⟨?_, ?_, uz, ?_, uy, ?_, ux, ?_, ?_⟩
      · rw [← hcv]
        exact chainH_head_ne qs cf _ v hmemv
      · have := encZ_nonneg L vx vy vz
        have := encZ_lt L vx vy vz hvxL hvyL hvzL
        omega
      · exact (mem_neighborRange L vz uz hvzL).mpr ⟨by omega, by omega, huzL⟩
      · exact (mem_neighborRange L vy uy hvyL).mpr ⟨by omega, by omega, huyL⟩
      · exact (mem_neighborRange L vx ux hvxL).mpr ⟨by omega, by omega, huxL⟩
      · rw [← hcv, ← hcu]
        rw [mem_otherBlock_lt qs cf cidx HC _ _ hgt]
        exact ⟨⟨hvN, rfl⟩, ⟨huN, rfl⟩⟩

/-! ## Geometry: a within-cutoff pair lies in neighboring cells -/

theorem cellNum_decomp (L : ℕ) (dr : ℝ) (r : Vec) (hL : 1 ≤ L) :
    ∃ ux uy uz : ℕ, ux < L ∧ uy < L ∧ uz < L ∧
      cellNum L dr r = encZ L ux uy uz := by
  have hx0 := binIndex_nonneg L dr r.x
  have hy0 := binIndex_nonneg L dr r.y
  have hz0 := binIndex_nonneg L dr r.z
  have hx1 := binIndex_le L dr r.x hL
  have hy1 := binIndex_le L dr r.y hL
  have hz1 := binIndex_le L dr r.z hL
  refine ⟨(binIndex L dr r.x).toNat, (binIndex L dr r.y).toNat,
    (binIndex L dr r.z).toNat, by omega, by omega, by omega, ?_⟩
  unfold cellNum encZ
  rw [Int.toNat_of_nonneg hx0, Int.toNat_of_nonneg hy0, Int.toNat_of_nonneg hz0]
  ring

theorem binIndex_diff_le (L : ℕ) (hL : 1 ≤ L) (rc : ℝ) (hrc0 : 0 ≤ rc)
    (hrc : rc ≤ 2 / (L : ℝ)) (a b : ℝ) (hab : (a - b) * (a - b) < rc * rc) :
    binIndex L (2 / (L : ℝ)) a ≤ binIndex L (2 / (L : ℝ)) b + 1 ∧
    binIndex L (2 / (L : ℝ)) b ≤ binIndex L (2 / (L : ℝ)) a + 1 := by
  have hL0 : (0 : ℝ) < (L : ℝ) := by
    have : (1 : ℝ) ≤ (L : ℝ) := by exact_mod_cast hL
    linarith
  have hdr : (0 : ℝ) < 2 / (L : ℝ) := by positivity
  have habs : |a - b| < rc := by
    have h2 : (a - b) ^ 2 < rc ^ 2 := by rw [sq, sq]; exact hab
    exact abs_lt_of_sq_lt_sq h2 hrc0
  have hdlt : |a - b| < 2 / (L : ℝ) := lt_of_lt_of_le habs hrc
  have huv : |(a + 1) / (2 / (L : ℝ)) - (b + 1) / (2 / (L : ℝ))| < 1 := by
    have he : (a + 1) / (2 / (L : ℝ)) - (b + 1) / (2 / (L : ℝ)) =
        (a - b) / (2 / (L : ℝ)) := by ring
    rw [he, abs_div, abs_of_pos hdr]
    rw [div_lt_one hdr]
    exact hdlt
  have hf1 : ⌊(a + 1) / (2 / (L : ℝ))⌋ ≤ ⌊(b + 1) / (2 / (L : ℝ))⌋ + 1 := by
    rw [← Int.floor_add_one]
    apply Int.floor_le_floor
    have := abs_lt.mp huv
    linarith [this.2]
  have hf2 : ⌊(b + 1) / (2 / (L : ℝ))⌋ ≤ ⌊(a + 1) / (2 / (L : ℝ))⌋ + 1 := by
    rw [← Int.floor_add_one]
    apply Int.floor_le_floor
    have := abs_lt.mp huv
    linarith [this.1]
  unfold binIndex
  omega

theorem comp_sq_le_mag2 (a b : Vec) :
    (a.x - b.x) * (a.x - b.x) ≤ vec_magnitude2 (vec_sub a b) ∧
    (a.y - b.y) * (a.y - b.y) ≤ vec_magnitude2 (vec_sub a b) ∧
    (a.z - b.z) * (a.z - b.z) ≤ vec_magnitude2 (vec_sub a b) := by
  unfold vec_magnitude2 vec_dot vec_sub
  dsimp only
  refine ⟨?_, ?_, ?_⟩ <;>
    nlinarith [mul_self_nonneg (a.x - b.x), mul_self_nonneg (a.y - b.y),
      mul_self_nonneg (a.z - b.z)]

/-! ## The out-of-cutoff and orientation structure of the contributions -/

/-- The acceleration contribution of a within-cutoff pair. -/
noncomputable def contribCore (cutoff gamma : ℝ) (ps : List Particle)
    (k : ℕ) (pr : ℕ × ℕ) : Vec :=
  if k = pr.1 then pairForce cutoff gamma (getP ps pr.1) (getP ps pr.2)
  else if k = pr.2 then vec_neg (pairForce cutoff gamma (getP ps pr.1) (getP ps pr.2))
  else VEC_ZERO

theorem vec_neg_neg (a : Vec) : vec_neg (vec_neg a) = a := by
  ext <;> simp [vec_neg]

theorem contribCore_swap (cutoff gamma : ℝ) (ps : List Particle) (k i j : ℕ)
    (hne : i ≠ j) :
    contribCore cutoff gamma ps k (j, i) = contribCore cutoff gamma ps k (i, j) := by
  unfold contribCore
  have hanti := pairForce_antisymm cutoff gamma (getP ps i) (getP ps j)
  by_cases h1 : k = i
  · rw [if_neg (by simp only []; omega), if_pos (by simp only []; omega)]
    rw [if_pos h1]
    simp only []
    rw [hanti, vec_neg_neg]
  · by_cases h2 : k = j
    · rw [if_pos h2, if_neg h1, if_pos h2]
      simp only []
      rw [hanti]
    · rw [if_neg h2, if_neg h1, if_neg h1, if_neg h2]

theorem contribCore_sortPair (cutoff gamma : ℝ) (ps : List Particle) (k : ℕ)
    (pr : ℕ × ℕ) (hne : pr.1 ≠ pr.2) :
    contribCore cutoff gamma ps k (sortPair pr) = contribCore cutoff gamma ps k pr := by
  rcases sortPair_cases pr with h | h <;> rw [h]
  exact contribCore_swap cutoff gamma ps k pr.1 pr.2 hne

theorem epCore_sortPair (cutoff : ℝ) (ps : List Particle) (pr : ℕ × ℕ) :
    pairEnergy cutoff (getP ps (sortPair pr).1) (getP ps (sortPair pr).2) =
      pairEnergy cutoff (getP ps pr.1) (getP ps pr.2) := by
  rcases sortPair_cases pr with h | h <;> rw [h]
  exact pairEnergy_symm cutoff _ _

theorem within_sortPair (cutoff : ℝ) (ps : List Particle) (pr : ℕ × ℕ) :
    vec_magnitude2 (vec_sub (getP ps (sortPair pr).1).r (getP ps (sortPair pr).2).r) =
      vec_magnitude2 (vec_sub (getP ps pr.1).r (getP ps pr.2).r) := by
  rcases sortPair_cases pr with h | h <;> rw [h]
  exact vec_magnitude2_sub_comm _ _

theorem sum_wwContrib_eq (cutoff : ℝ) (qs : List Particle) (l : List (ℕ × ℕ)) :
    (l.map (wwContrib cutoff qs)).sum =
      (l.filter fun pr => decide (vec_magnitude2
        (vec_sub (getP qs pr.1).r (getP qs pr.2).r) < cutoff * cutoff)).length := by
  induction l with
  | nil => rfl
  | cons pr rest ihl =>
    rw [List.map_cons, List.sum_cons, ihl, List.filter_cons]
    by_cases h : vec_magnitude2 (vec_sub (getP qs pr.1).r (getP qs pr.2).r) <
        cutoff * cutoff
    · rw [if_pos (by simpa using h), List.length_cons]
      unfold wwContrib
      rw [if_pos h]
      omega
    · rw [if_neg (by simpa using h)]
      unfold wwContrib
      rw [if_neg h]
      omega

theorem sum_epContrib_eq (cutoff : ℝ) (qs : List Particle) (l : List (ℕ × ℕ)) :
    (l.map (epContrib cutoff qs)).sum =
      ((l.filter fun pr => decide (vec_magnitude2
          (vec_sub (getP qs pr.1).r (getP qs pr.2).r) < cutoff * cutoff)).map
        fun pr => pairEnergy cutoff (getP qs pr.1) (getP qs pr.2)).sum := by
  induction l with
  | nil => rfl
  | cons pr rest ihl =>
    rw [List.map_cons, List.sum_cons, ihl, List.filter_cons]
    by_cases h : vec_magnitude2 (vec_sub (getP qs pr.1).r (getP qs pr.2).r) <
        cutoff * cutoff
    · rw [if_pos (by simpa using h), List.map_cons, List.sum_cons]
      unfold epContrib
      rw [if_pos h]
    · rw [if_neg (by simpa using h)]
      unfold epContrib
      rw [if_neg h]
      ring

theorem sum_contribA_eq (cutoff gamma : ℝ) (qs : List Particle) (k : ℕ)
    (l : List (ℕ × ℕ)) :
    (l.map (contribA cutoff gamma qs k)).sum =
      ((l.filter fun pr => decide (vec_magnitude2
          (vec_sub (getP qs pr.1).r (getP qs pr.2).r) < cutoff * cutoff)).map
        (contribCore cutoff gamma qs k)).sum := by
  induction l with
  | nil => rfl
  | cons pr rest ihl =>
    rw [List.map_cons, List.sum_cons, ihl, List.filter_cons]
    by_cases h : vec_magnitude2 (vec_sub (getP qs pr.1).r (getP qs pr.2).r) <
        cutoff * cutoff
    · rw [if_pos (by simpa using h), List.map_cons, List.sum_cons]
      have he : contribA cutoff gamma qs k pr = contribCore cutoff gamma qs k pr := by
        unfold contribA contribCore
        rw [if_pos h]
      rw [he]
    · rw [if_neg (by simpa using h)]
      have he : contribA cutoff gamma qs k pr = VEC_ZERO := by
        unfold contribA
        rw [if_neg h]
      rw [he, ← vec_zero_def, zero_add]

theorem cellNum_encZ (L : ℕ) (dr : ℝ) (r : Vec) (hL : 1 ≤ L) :
    cellNum L dr r = encZ L (binIndex L dr r.x).toNat (binIndex L dr r.y).toNat
        (binIndex L dr r.z).toNat ∧
    (binIndex L dr r.x).toNat < L ∧ (binIndex L dr r.y).toNat < L ∧
    (binIndex L dr r.z).toNat < L := by
  have hx0 := binIndex_nonneg L dr r.x
  have hy0 := binIndex_nonneg L dr r.y
  have hz0 := binIndex_nonneg L dr r.z
  have hx1 := binIndex_le L dr r.x hL
  have hy1 := binIndex_le L dr r.y hL
  have hz1 := binIndex_le L dr r.z hL
  refine ⟨?_, by omega, by omega, by omega⟩
  unfold cellNum encZ
  rw [Int.toNat_of_nonneg hx0, Int.toNat_of_nonneg hy0, Int.toNat_of_nonneg hz0]
  ring

/-! ## Claim C4: the full cell-list sweep matches the brute-force sweep -/

/-- C4: for every particle configuration, every cutoff `0 ≤ rc` and every
binning `L ≥ 1` with `dr = 2/L ≥ rc`, a `dvs_calc_forces` sweep over the
full cell range `[0, L³)` after `dvs_populate_cells`, and a
`dvs_calc_brute_forces` sweep over `[0, N)`, produce identical
`real_ww_counter`, identical `E_pot`, and identical accelerations (exactly,
in real arithmetic: both visit exactly the within-cutoff pairs once). -/
theorem cell_list_matches_brute (ps : List Particle) (L : ℕ) (rc gamma : ℝ)
    (st : Stats) (hL : 1 ≤ L) (hrc0 : 0 ≤ rc) (hrc : rc ≤ 2 / (L : ℝ)) :
    (dvs_calc_forces (dvs_populate_cells ps (Cells_new L)).1
        (dvs_populate_cells ps (Cells_new L)).2 0 ((L : ℤ) ^ 3)
        rc gamma st).2.real_ww_counter =
      (dvs_calc_brute_forces ps.length (dvs_populate_cells ps (Cells_new L)).1
        0 ps.length rc gamma st).2.real_ww_counter ∧
    (dvs_calc_forces (dvs_populate_cells ps (Cells_new L)).1
        (dvs_populate_cells ps (Cells_new L)).2 0 ((L : ℤ) ^ 3)
        rc gamma st).2.E_pot =
      (dvs_calc_brute_forces ps.length (dvs_populate_cells ps (Cells_new L)).1
        0 ps.length rc gamma st).2.E_pot ∧
    ∀ k, (getP (dvs_calc_forces (dvs_populate_cells ps (Cells_new L)).1
        (dvs_populate_cells ps (Cells_new L)).2 0 ((L : ℤ) ^ 3)
        rc gamma st).1 k).a =
      (getP (dvs_calc_brute_forces ps.length
        (dvs_populate_cells ps (Cells_new L)).1 0 ps.length rc gamma st).1 k).a := by
  simp only [dvs_calc_forces, dvs_calc_brute_forces]
  rw [show (dvs_populate_cells ps (Cells_new L)).2.binning = L from rfl]
  set qs := (dvs_populate_cells ps (Cells_new L)).1 with hqs
  set cf := (dvs_populate_cells ps (Cells_new L)).2.cells with hcf
  set cidxf : ℕ → ℤ := fun i => cellNum L (2 / (L : ℝ)) (getP qs i).r with hcidxf
  have hlen2 : qs.length = ps.length := populate_length ps (Cells_new L)
  have hrfield : ∀ i, (getP qs i).r = (getP ps i).r :=
    fun i => (populate_fields ps (Cells_new L) i).1
  have HC : ∀ c : ℤ, chainList qs qs.length (cf c) =
      ((List.range qs.length).filter fun i => cidxf i == c).reverse := by
    intro c
    have h1 := populate_chain_eq ps (Cells_new L) c
    rw [hlen2]
    rw [h1]
    congr 1
    apply List.filter_congr
    intro i _
    have : cellNum (Cells_new L).binning (Cells_new L).dr (getP ps i).r =
        cidxf i := by
      rw [hcidxf]
      show cellNum L (2 / (L : ℝ)) (getP ps i).r = cellNum L (2 / (L : ℝ)) (getP qs i).r
      rw [hrfield i]
    rw [this]
  have HD : ∀ i, i < qs.length → ∃ ux uy uz : ℕ,
      ux < L ∧ uy < L ∧ uz < L ∧ cidxf i = encZ L ux uy uz :=
    fun i _ => cellNum_decomp L (2 / (L : ℝ)) (getP qs i).r hL
  have hvalid_sweep := sweepPairs_valid L qs cf cidxf HC 0 ((L : ℤ) ^ 3)
  have hvalid_brute : ∀ pr ∈ brutePairs ps.length 0 ps.length,
      pr.1 < qs.length ∧ pr.2 < qs.length ∧ pr.1 ≠ pr.2 := by
    intro pr hpr
    have := (mem_brutePairs ps.length 0 ps.length pr.1 pr.2).mp hpr
    rw [hlen2]
    exact ⟨by omega, by omega, by omega⟩
  obtain ⟨_, _, _, _, haS, _, hrwwS, hES⟩ :=
    runPairs_spec rc gamma (sweepPairs L qs cf 0 ((L : ℤ) ^ 3)) qs st hvalid_sweep
  obtain ⟨_, _, _, _, haB, _, hrwwB, hEB⟩ :=
    runPairs_spec rc gamma (brutePairs ps.length 0 ps.length) qs st hvalid_brute
  -- the common within-cutoff filter
  set Wf : ℕ × ℕ → Bool := fun pr => decide (vec_magnitude2
    (vec_sub (getP qs pr.1).r (getP qs pr.2).r) < rc * rc) with hWf
  have hWfSort : ∀ pr, Wf (sortPair pr) = Wf pr := by
    intro pr
    rw [hWf]
    simp only
    rw [within_sortPair rc]
  -- the permutation between the two within-cutoff pair sets
  have hnd1 : (((sweepPairs L qs cf 0 ((L : ℤ) ^ 3)).filter Wf).map sortPair).Nodup :=
    List.Nodup.sublist
      (List.Sublist.map sortPair (List.filter_sublist _))
      (sweepPairs_map_sortPair_nodup qs cf cidxf HC L hL 0 ((L : ℤ) ^ 3))
  have hnd2 : ((brutePairs ps.length 0 ps.length).filter Wf).Nodup :=
    (brutePairs_nodup ps.length 0 ps.length).filter Wf
  have hmem : ∀ uv : ℕ × ℕ,
      uv ∈ ((sweepPairs L qs cf 0 ((L : ℤ) ^ 3)).filter Wf).map sortPair ↔
      uv ∈ (brutePairs ps.length 0 ps.length).filter Wf := by
    rintro ⟨u, v⟩
    constructor
    · intro h
      obtain ⟨pr, hprF, hsort⟩ := List.mem_map.mp h
      rw [List.mem_filter] at hprF
      obtain ⟨hprS, hWpr⟩ := hprF
      have hms : (u, v) ∈ (sweepPairs L qs cf 0 ((L : ℤ) ^ 3)).map sortPair :=
        List.mem_map.mpr ⟨pr, hprS, hsort⟩
      obtain ⟨huv, huN, hvN, _⟩ :=
        (mem_sweep_sorted_iff qs cf cidxf HC L hL HD u v).mp hms
      have hWuv : Wf (u, v) = true := by
        rw [← hsort, hWfSort]
        exact hWpr
      rw [List.mem_filter]
      refine ⟨(mem_brutePairs ps.length 0 ps.length u v).mpr
        ⟨Nat.zero_le u, by omega, huv, by omega⟩, hWuv⟩
    · intro h
      rw [List.mem_filter] at h
      obtain ⟨hbr, hWuv⟩ := h
      obtain ⟨_, huL, huv, hvL⟩ := (mem_brutePairs ps.length 0 ps.length u v).mp hbr
      have hwithin : vec_magnitude2
          (vec_sub (getP qs u).r (getP qs v).r) < rc * rc := by
        have := hWuv
        rw [hWf] at this
        simp only at this
        exact of_decide_eq_true this
      -- neighbor cells from the geometry of the cutoff
      obtain ⟨hcu, hub1, hub2, hub3⟩ :=
        cellNum_encZ L (2 / (L : ℝ)) (getP qs u).r hL
      obtain ⟨hcv, hvb1, hvb2, hvb3⟩ :=
        cellNum_encZ L (2 / (L : ℝ)) (getP qs v).r hL
      obtain ⟨hsx, hsy, hsz⟩ := comp_sq_le_mag2 (getP qs u).r (getP qs v).r
      obtain ⟨hdx1, hdx2⟩ := binIndex_diff_le L hL rc hrc0 hrc
        (getP qs u).r.x (getP qs v).r.x (lt_of_le_of_lt hsx hwithin)
      obtain ⟨hdy1, hdy2⟩ := binIndex_diff_le L hL rc hrc0 hrc
        (getP qs u).r.y (getP qs v).r.y (lt_of_le_of_lt hsy hwithin)
      obtain ⟨hdz1, hdz2⟩ := binIndex_diff_le L hL rc hrc0 hrc
        (getP qs u).r.z (getP qs v).r.z (lt_of_le_of_lt hsz hwithin)
      have hx0u := binIndex_nonneg L (2 / (L : ℝ)) (getP qs u).r.x
      have hy0u := binIndex_nonneg L (2 / (L : ℝ)) (getP qs u).r.y
      have hz0u := binIndex_nonneg L (2 / (L : ℝ)) (getP qs u).r.z
      have hx0v := binIndex_nonneg L (2 / (L : ℝ)) (getP qs v).r.x
      have hy0v := binIndex_nonneg L (2 / (L : ℝ)) (getP qs v).r.y
      have hz0v := binIndex_nonneg L (2 / (L : ℝ)) (getP qs v).r.z
      have hms : (u, v) ∈ (sweepPairs L qs cf 0 ((L : ℤ) ^ 3)).map sortPair := by
        apply (mem_sweep_sorted_iff qs cf cidxf HC L hL HD u v).mpr
        refine ⟨huv, by omega, by omega,
          (binIndex L (2 / (L : ℝ)) (getP qs u).r.x).toNat,
          (binIndex L (2 / (L : ℝ)) (getP qs u).r.y).toNat,
          (binIndex L (2 / (L : ℝ)) (getP qs u).r.z).toNat,
          (binIndex L (2 / (L : ℝ)) (getP qs v).r.x).toNat,
          (binIndex L (2 / (L : ℝ)) (getP qs v).r.y).toNat,
          (binIndex L (2 / (L : ℝ)) (getP qs v).r.z).toNat,
          hub1, hub2, hub3, hvb1, hvb2, hvb3, hcu, hcv,
          by omega, by omega, by omega, by omega, by omega, by omega⟩
      obtain ⟨pr, hprS, hsort⟩ := List.mem_map.mp hms
      apply List.mem_map.mpr
      refine ⟨pr, ?_, hsort⟩
      rw [List.mem_filter]
      refine ⟨hprS, ?_⟩
      rw [← hWfSort, hsort]
      exact hWuv
  have hperm : (((sweepPairs L qs cf 0 ((L : ℤ) ^ 3)).filter Wf).map sortPair).Perm
      ((brutePairs ps.length 0 ps.length).filter Wf) :=
    (List.perm_ext_iff_of_nodup hnd1 hnd2).mpr hmem
  have hlens : ((sweepPairs L qs cf 0 ((L : ℤ) ^ 3)).filter Wf).length =
      ((brutePairs ps.length 0 ps.length).filter Wf).length := by
    have := hperm.length_eq
    rwa [List.length_map] at this
  refine ⟨?_, ?_, ?_⟩
  · rw [hrwwS, hrwwB, sum_wwContrib_eq, sum_wwContrib_eq]
    rw [hWf] at hlens
    rw [hlens]
  · rw [hES, hEB, sum_epContrib_eq, sum_epContrib_eq]
    have h1 : ((((sweepPairs L qs cf 0 ((L : ℤ) ^ 3)).filter Wf).map sortPair).map
        fun pr => pairEnergy rc (getP qs pr.1) (getP qs pr.2)).sum =
        (((sweepPairs L qs cf 0 ((L : ℤ) ^ 3)).filter Wf).map
        fun pr => pairEnergy rc (getP qs pr.1) (getP qs pr.2)).sum := by
      rw [List.map_map]
      apply congrArg
      apply List.map_congr_left
      intro pr _
      exact epCore_sortPair rc qs pr
    have h2 := (hperm.map fun pr => pairEnergy rc (getP qs pr.1) (getP qs pr.2)).sum_eq
    rw [h1] at h2
    rw [hWf] at h2
    rw [h2]
  · intro k
    rw [haS k, haB k]
    apply congrArg
    rw [sum_contribA_eq, sum_contribA_eq]
    have h1 : ((((sweepPairs L qs cf 0 ((L : ℤ) ^ 3)).filter Wf).map sortPair).map
        (contribCore rc gamma qs k)).sum =
        (((sweepPairs L qs cf 0 ((L : ℤ) ^ 3)).filter Wf).map
        (contribCore rc gamma qs k)).sum := by
      rw [List.map_map]
      apply congrArg
      apply List.map_congr_left
      intro pr hpr
      exact contribCore_sortPair rc gamma qs k pr
        (hvalid_sweep pr (List.mem_of_mem_filter hpr)).2.2
    have h2 := (hperm.map (contribCore rc gamma qs k)).sum_eq
    rw [h1] at h2
    rw [hWf] at h2
    rw [h2]

/-- Witness for `cell_list_matches_brute` with a single particle. -/
theorem cell_list_matches_brute_witness :
    1 ≤ 1 ∧ (0 : ℝ) ≤ 1 ∧ (1 : ℝ) ≤ 2 / ((1 : ℕ) : ℝ) ∧
    ((dvs_calc_forces (dvs_populate_cells [pdef] (Cells_new 1)).1
        (dvs_populate_cells [pdef] (Cells_new 1)).2 0 (((1 : ℕ) : ℤ) ^ 3)
        1 0 ⟨0, 0, 0⟩).2.real_ww_counter =
      (dvs_calc_brute_forces [pdef].length (dvs_populate_cells [pdef] (Cells_new 1)).1
        0 [pdef].length 1 0 ⟨0, 0, 0⟩).2.real_ww_counter ∧
    (dvs_calc_forces (dvs_populate_cells [pdef] (Cells_new 1)).1
        (dvs_populate_cells [pdef] (Cells_new 1)).2 0 (((1 : ℕ) : ℤ) ^ 3)
        1 0 ⟨0, 0, 0⟩).2.E_pot =
      (dvs_calc_brute_forces [pdef].length (dvs_populate_cells [pdef] (Cells_new 1)).1
        0 [pdef].length 1 0 ⟨0, 0, 0⟩).2.E_pot ∧
    ∀ k, (getP (dvs_calc_forces (dvs_populate_cells [pdef] (Cells_new 1)).1
        (dvs_populate_cells [pdef] (Cells_new 1)).2 0 (((1 : ℕ) : ℤ) ^ 3)
        1 0 ⟨0, 0, 0⟩).1 k).a =
      (getP (dvs_calc_brute_forces [pdef].length
        (dvs_populate_cells [pdef] (Cells_new 1)).1 0 [pdef].length
        1 0 ⟨0, 0, 0⟩).1 k).a) :=
  ⟨le_refl 1, by norm_num, by norm_num,
    cell_list_matches_brute [pdef] 1 1 0 ⟨0, 0, 0⟩ (le_refl 1) (by norm_num)
      (by norm_num)⟩

/-! ## Claim C6: partition additivity of `dvs_calc_forces` -/

theorem chain_head_le_last : ∀ (l : List ℤ), List.Chain' (fun a b => a ≤ b) l →
    ∀ a b : ℤ, l.head? = some a → l.getLast? = some b → a ≤ b := by
  intro l
  induction l with
  | nil =>
    intro _ a b hh _
    simp at hh
  | cons c t ih =>
    intro hch a b hh hl
    rw [List.head?_cons, Option.some.injEq] at hh
    subst hh
    cases t with
    | nil =>
      rw [List.getLast?_singleton, Option.some.injEq] at hl
      subst hl
      exact le_refl _
    | cons c2 t2 =>
      rw [List.getLast?_cons_cons] at hl
      obtain ⟨h1, h2⟩ := List.chain'_cons.mp hch
      exact le_trans h1 (ih h2 c2 b rfl hl)

theorem ite_range_split {α : Type} (e c0 c1 c2 : ℤ) (h01 : c0 ≤ c1)
    (h12 : c1 ≤ c2) (l : List α) :
    (if e < c0 ∨ c2 ≤ e then ([] : List α) else l) =
      (if e < c0 ∨ c1 ≤ e then ([] : List α) else l) ++
      (if e < c1 ∨ c2 ≤ e then ([] : List α) else l) := by
  by_cases ha : e < c0 ∨ c1 ≤ e
  · by_cases hb : e < c1 ∨ c2 ≤ e
    · rw [if_pos ha, if_pos hb, if_pos (by omega : e < c0 ∨ c2 ≤ e)]
      rfl
    · rw [if_pos ha, if_neg hb, if_neg (by omega : ¬(e < c0 ∨ c2 ≤ e))]
      rfl
  · by_cases hb : e < c1 ∨ c2 ≤ e
    · rw [if_neg ha, if_pos hb, if_neg (by omega : ¬(e < c0 ∨ c2 ≤ e))]
      rw [List.append_nil]
    · exfalso
      omega

theorem thisBlock_split (L : ℕ) (ps : List Particle) (cells : ℤ → ℤ)
    (c0 c1 c2 : ℤ) (h01 : c0 ≤ c1) (h12 : c1 ≤ c2) (x y z : ℕ) :
    thisBlock L ps cells c0 c2 x y z =
      thisBlock L ps cells c0 c1 x y z ++ thisBlock L ps cells c1 c2 x y z := by
  unfold thisBlock
  by_cases h : cells (encZ L x y z) = -1
  · rw [if_pos h, if_pos h, if_pos h]
    rfl
  · rw [if_neg h, if_neg h, if_neg h]
    exact ite_range_split (encZ L x y z) c0 c1 c2 h01 h12 _

theorem flatMap_split_perm {α β : Type} (l : List α) (f g h : α → List β)
    (hfg : ∀ a ∈ l, (f a).Perm (g a ++ h a)) :
    (l.flatMap f).Perm (l.flatMap g ++ l.flatMap h) := by
  induction l with
  | nil => simp
  | cons a t ih =>
    simp only [List.flatMap_cons]
    have ih2 := ih fun b hb => hfg b (List.mem_cons_of_mem a hb)
    have s1 : (f a ++ t.flatMap f).Perm
        ((g a ++ h a) ++ (t.flatMap g ++ t.flatMap h)) :=
      List.Perm.append (hfg a (List.mem_cons_self a t)) ih2
    have s2 : ((g a ++ h a) ++ (t.flatMap g ++ t.flatMap h)).Perm
        ((g a ++ t.flatMap g) ++ (h a ++ t.flatMap h)) := by
      simp only [List.append_assoc]
      apply List.Perm.append_left
      rw [← List.append_assoc, ← List.append_assoc]
      exact List.Perm.append_right _ List.perm_append_comm
    exact s1.trans s2

theorem sweepPairs_split_perm (L : ℕ) (ps : List Particle) (cells : ℤ → ℤ)
    (c0 c1 c2 : ℤ) (h01 : c0 ≤ c1) (h12 : c1 ≤ c2) :
    (sweepPairs L ps cells c0 c2).Perm
      (sweepPairs L ps cells c0 c1 ++ sweepPairs L ps cells c1 c2) := by
  unfold sweepPairs
  apply flatMap_split_perm
  intro z _
  apply flatMap_split_perm
  intro y _
  apply flatMap_split_perm
  intro x _
  exact List.Perm.of_eq (thisBlock_split L ps cells c0 c1 c2 h01 h12 x y z)

theorem sweepPairs_empty_of_le (L : ℕ) (ps : List Particle) (cells : ℤ → ℤ)
    (c0 c1 : ℤ) (h : c1 ≤ c0) : sweepPairs L ps cells c0 c1 = [] := by
  unfold sweepPairs
  have hb : ∀ x y z : ℕ, thisBlock L ps cells c0 c1 x y z = [] := by
    intro x y z
    unfold thisBlock
    by_cases hc : cells (encZ L x y z) = -1
    · rw [if_pos hc]
    · rw [if_neg hc, if_pos (by omega : encZ L x y z < c0 ∨ c1 ≤ encZ L x y z)]
  simp [hb]

theorem vec_zero_add (a : Vec) : vec_add VEC_ZERO a = a := by
  ext <;> simp [vec_add, VEC_ZERO]

theorem populate_HC (ps : List Particle) (L : ℕ) (c : ℤ) :
    chainList (dvs_populate_cells ps (Cells_new L)).1
        (dvs_populate_cells ps (Cells_new L)).1.length
        ((dvs_populate_cells ps (Cells_new L)).2.cells c) =
      ((List.range (dvs_populate_cells ps (Cells_new L)).1.length).filter
        fun i => cellNum L (2 / (L : ℝ))
          (getP (dvs_populate_cells ps (Cells_new L)).1 i).r == c).reverse := by
  have hlen2 : (dvs_populate_cells ps (Cells_new L)).1.length = ps.length :=
    populate_length ps (Cells_new L)
  rw [hlen2]
  rw [populate_chain_eq ps (Cells_new L) c]
  congr 1
  apply List.filter_congr
  intro i _
  have hr : (getP (dvs_populate_cells ps (Cells_new L)).1 i).r = (getP ps i).r :=
    (populate_fields ps (Cells_new L) i).1
  rw [hr]
  rfl

theorem fold_collect_spec (cutoff gamma : ℝ) (st : Stats) (L : ℕ)
    (qs : List Particle) (cf : ℤ → ℤ)
    (hvalid : ∀ c0 c1 : ℤ, ∀ pr ∈ sweepPairs L qs cf c0 c1,
      pr.1 < qs.length ∧ pr.2 < qs.length ∧ pr.1 ≠ pr.2)
    (hqa : ∀ k, k < qs.length → (getP qs k).a = VEC_ZERO) :
    ∀ (cuts : List ℤ) (acc : List Particle), acc.length = qs.length →
      List.Chain' (fun a b => a ≤ b) cuts →
      ∀ c0 c1 : ℤ, cuts.head? = some c0 → cuts.getLast? = some c1 →
      ((cuts.zip cuts.tail).foldl
        (fun acc2 rg => dvs_collect_forces qs.length acc2
          (runPairs cutoff gamma (qs, st) (sweepPairs L qs cf rg.1 rg.2)).1)
        acc).length = qs.length ∧
      ∀ k, k < qs.length →
        (getP ((cuts.zip cuts.tail).foldl
          (fun acc2 rg => dvs_collect_forces qs.length acc2
            (runPairs cutoff gamma (qs, st) (sweepPairs L qs cf rg.1 rg.2)).1)
          acc) k).a =
        vec_add (getP acc k).a
          ((sweepPairs L qs cf c0 c1).map (contribA cutoff gamma qs k)).sum := by
  intro cuts
  induction cuts with
  | nil =>
    intro acc _ _ c0 c1 hh _
    simp at hh
  | cons c t ih =>
    intro acc hlen hch c0 c1 hh hl
    rw [List.head?_cons, Option.some.injEq] at hh
    subst hh
    cases t with
    | nil =>
      rw [List.getLast?_singleton, Option.some.injEq] at hl
      subst hl
      simp only [List.tail_cons, List.zip_nil_right, List.foldl_nil]
      refine ⟨hlen, ?_⟩
      intro k _
      rw [sweepPairs_empty_of_le L qs cf c c (le_refl c)]
      simp only [List.map_nil, List.sum_nil, vec_zero_def, vec_add_zero]
    | cons c2 t2 =>
      obtain ⟨hcc2, hch2⟩ := List.chain'_cons.mp hch
      rw [List.getLast?_cons_cons] at hl
      have hc2c1 : c2 ≤ c1 := chain_head_le_last (c2 :: t2) hch2 c2 c1 rfl hl
      simp only [List.tail_cons, List.zip_cons_cons, List.foldl_cons]
      obtain ⟨hrlen, _, _, _, hra, _, _, _⟩ :=
        runPairs_spec cutoff gamma (sweepPairs L qs cf c c2) qs st (hvalid c c2)
      obtain ⟨hclen, hcget⟩ := collect_forces_spec qs.length acc
        (runPairs cutoff gamma (qs, st) (sweepPairs L qs cf c c2)).1
        (le_of_eq hlen.symm) (le_of_eq hrlen.symm)
      have hlen' : (dvs_collect_forces qs.length acc
          (runPairs cutoff gamma (qs, st) (sweepPairs L qs cf c c2)).1).length =
          qs.length := hclen.trans hlen
      obtain ⟨ihlen, iha⟩ := ih (dvs_collect_forces qs.length acc
        (runPairs cutoff gamma (qs, st) (sweepPairs L qs cf c c2)).1)
        hlen' hch2 c2 c1 rfl hl
      simp only [List.tail_cons] at ihlen iha
      refine ⟨ihlen, ?_⟩
      intro k hk
      rw [iha k hk]
      have hacca : (getP (dvs_collect_forces qs.length acc
          (runPairs cutoff gamma (qs, st) (sweepPairs L qs cf c c2)).1) k).a =
          vec_add (getP acc k).a
            ((sweepPairs L qs cf c c2).map (contribA cutoff gamma qs k)).sum := by
        have h1 := hcget k
        rw [if_pos hk] at h1
        rw [h1]
        dsimp only
        rw [hra k, hqa k hk, vec_zero_add]
      rw [hacca]
      have hsum : ((sweepPairs L qs cf c c1).map (contribA cutoff gamma qs k)).sum =
          ((sweepPairs L qs cf c c2).map (contribA cutoff gamma qs k)).sum +
          ((sweepPairs L qs cf c2 c1).map (contribA cutoff gamma qs k)).sum := by
        have hp := (sweepPairs_split_perm L qs cf c c2 c1 hcc2 hc2c1).map
          (contribA cutoff gamma qs k)
        rw [hp.sum_eq, List.map_append, List.sum_append]
      rw [hsum]
      simp only [← vec_add_def]
      exact add_assoc _ _ _

/-- C6: for every particle configuration with zeroed accelerations, every
binning `L`, and every partition of the cell range into consecutive
half-open ranges given by a monotone cut list `c_0 ≤ c_1 ≤ … ≤ c_n`,
running `dvs_calc_forces` once per range `[c_k, c_{k+1})` and summing the
per-range accelerations with `dvs_collect_forces` yields, componentwise and
exactly, the accelerations of one `dvs_calc_forces` call over the full
range `[c_0, c_n)`. -/
theorem calc_forces_partition_additive (ps : List Particle) (L : ℕ)
    (rc gamma : ℝ) (st : Stats)
    (hzero : ∀ p ∈ ps, p.a = VEC_ZERO)
    (cuts : List ℤ) (c0 c1 : ℤ)
    (hchain : List.Chain' (fun a b => a ≤ b) cuts)
    (hhead : cuts.head? = some c0) (hlast : cuts.getLast? = some c1) :
    ∀ k, k < ps.length →
      (getP ((cuts.zip cuts.tail).foldl
        (fun acc rg => dvs_collect_forces ps.length acc
          (dvs_calc_forces (dvs_populate_cells ps (Cells_new L)).1
            (dvs_populate_cells ps (Cells_new L)).2 rg.1 rg.2 rc gamma st).1)
        (dvs_populate_cells ps (Cells_new L)).1) k).a =
      (getP (dvs_calc_forces (dvs_populate_cells ps (Cells_new L)).1
        (dvs_populate_cells ps (Cells_new L)).2 c0 c1 rc gamma st).1 k).a := by
  simp only [dvs_calc_forces]
  rw [show (dvs_populate_cells ps (Cells_new L)).2.binning = L from rfl]
  rw [← populate_length ps (Cells_new L)]
  set qs := (dvs_populate_cells ps (Cells_new L)).1 with hqs
  set cf := (dvs_populate_cells ps (Cells_new L)).2.cells with hcf
  have HC : ∀ c : ℤ, chainList qs qs.length (cf c) =
      ((List.range qs.length).filter fun i =>
        cellNum L (2 / (L : ℝ)) (getP qs i).r == c).reverse :=
    fun c => populate_HC ps L c
  have hvalid : ∀ a b : ℤ, ∀ pr ∈ sweepPairs L qs cf a b,
      pr.1 < qs.length ∧ pr.2 < qs.length ∧ pr.1 ≠ pr.2 :=
    fun a b => sweepPairs_valid L qs cf
      (fun j => cellNum L (2 / (L : ℝ)) (getP qs j).r) HC a b
  have hqa : ∀ k, k < qs.length → (getP qs k).a = VEC_ZERO := by
    intro k hk
    have h1 : (getP qs k).a = (getP ps k).a :=
      (populate_fields ps (Cells_new L) k).2.2
    have hk2 : k < ps.length := by
      rw [hqs, populate_length ps (Cells_new L)] at hk
      exact hk
    rw [h1, getP_eq_getElem ps k hk2]
    exact hzero ps[k] (List.getElem_mem hk2)
  obtain ⟨_, hfold⟩ := fold_collect_spec rc gamma st L qs cf hvalid hqa
    cuts qs rfl hchain c0 c1 hhead hlast
  intro k hk
  rw [hfold k hk]
  obtain ⟨_, _, _, _, haS, _, _, _⟩ :=
    runPairs_spec rc gamma (sweepPairs L qs cf c0 c1) qs st (hvalid c0 c1)
  rw [haS k]

/-- Witness for `calc_forces_partition_additive`: one particle, binning 1,
cuts `[0, 1]`. -/
theorem calc_forces_partition_additive_witness :
    (∀ p ∈ [pdef], p.a = VEC_ZERO) ∧
    List.Chain' (fun a b : ℤ => a ≤ b) [0, 1] ∧
    ([0, 1] : List ℤ).head? = some 0 ∧
    ([0, 1] : List ℤ).getLast? = some 1 ∧
    ∀ k, k < [pdef].length →
      (getP ((([0, 1] : List ℤ).zip ([0, 1] : List ℤ).tail).foldl
        (fun acc rg => dvs_collect_forces [pdef].length acc
          (dvs_calc_forces (dvs_populate_cells [pdef] (Cells_new 1)).1
            (dvs_populate_cells [pdef] (Cells_new 1)).2 rg.1 rg.2
            1 0 ⟨0, 0, 0⟩).1)
        (dvs_populate_cells [pdef] (Cells_new 1)).1) k).a =
      (getP (dvs_calc_forces (dvs_populate_cells [pdef] (Cells_new 1)).1
        (dvs_populate_cells [pdef] (Cells_new 1)).2 0 1 1 0 ⟨0, 0, 0⟩).1 k).a :=
  ⟨by intro p hp; rw [List.mem_singleton] at hp; rw [hp]; rfl,
   by simp [List.chain'_cons, List.chain'_singleton],
   rfl, rfl,
   calc_forces_partition_additive [pdef] 1 1 0 ⟨0, 0, 0⟩
     (by intro p hp; rw [List.mem_singleton] at hp; rw [hp]; rfl) [0, 1] 0 1
     (by simp [List.chain'_cons, List.chain'_singleton]) rfl rfl⟩
